import Mathlib

/-!
Verification of the selection / data-join / enter-update-exit core of the
repository, a declarative tree-reconciliation engine.  The repository text
describes the engine (selections as sequences of groups, the keyed data
join producing update / enter / exit, the materializer for enter
placeholders, and the select / selectAll / append selection operations);
the executable definitions below embed that description and the theorems
establish the documented properties.
-/

namespace D3Join

/-- A datum bound to a node; the engine treats data as opaque values. -/
abbrev Datum := Nat

/-- A key derived from a datum (or a bound datum) used for matching. -/
abbrev Key := Nat

/-- Modelled from the spec: a NodeHandle is an opaque reference to one
addressable target object (its `id`), plus the mutable persistent
`boundDatum` slot stored on the handle itself, plus a parent reference.
The concrete d3 element implementation is not part of the repository
sources, which only describe it. -/
structure NodeHandle where
  id : Nat
  boundDatum : Option Datum
  parent : Option Nat
deriving DecidableEq

/-- Modelled from the spec: a Group is an ordered sequence of node slots
(`none` is an empty slot) sharing one common parent reference. -/
structure Group where
  parent : NodeHandle
  slots : List (Option NodeHandle)
deriving DecidableEq

/-- The non-empty nodes of a group, in slot order. -/
def Group.nodes (g : Group) : List NodeHandle :=
  g.slots.filterMap id

/-- Modelled from the spec: a Selection is an ordered sequence of Groups. -/
abbrev Selection := List Group

/-- Modelled from the spec: an EnterPlaceholder carries the datum awaiting
materialization, its index in the new data, and the parent reference, but
no concrete node. -/
structure EnterPlaceholder where
  datum : Datum
  index : Nat
  parent : NodeHandle
deriving DecidableEq

/-- Modelled from the spec: the per-group join result.  `update` and
`enter` are parallel sequences aligned with the new data; `exit` holds
the leftover old nodes. -/
structure GroupJoinResult where
  update : List (Option NodeHandle)
  enter : List (Option EnterPlaceholder)
  exit : List NodeHandle
deriving DecidableEq

/-- Modelled from the spec: the key specification of a join.  The default
is the positional index; otherwise a caller-supplied key function maps a
datum or a bound datum to a key, and may fail (a throwing key function). -/
inductive KeySpec where
  | byIndex : KeySpec
  | byKey : (Option Datum → Option Key) → KeySpec

/-- Evaluate a key function on a list of (optional) data; a single failure
makes the whole evaluation fail, as a throwing key function aborts the
join. -/
def evalKeys (f : Option Datum → Option Key) : List (Option Datum) → Option (List Key)
  | [] => some []
  | d :: ds =>
    match f d, evalKeys f ds with
    | some k, some ks => some (k :: ks)
    | _, _ => none

/-- Modelled from the spec: the keys of the existing non-empty nodes of a
group, computed from their bound data (positional index by default). -/
def oldKeys : KeySpec → List NodeHandle → Option (List Key)
  | .byIndex, ns => some (List.range ns.length)
  | .byKey f, ns => evalKeys f (ns.map NodeHandle.boundDatum)

/-- Modelled from the spec: the keys of the new data of a group
(positional index by default). -/
def newKeys : KeySpec → List Datum → Option (List Key)
  | .byIndex, ds => some (List.range ds.length)
  | .byKey f, ds => evalKeys f (ds.map some)

/-- Working state of the per-group join: one entry per existing node,
carrying its key and whether it has already been consumed by a new
datum. -/
structure OldEntry where
  node : NodeHandle
  key : Key
  consumed : Bool
deriving DecidableEq

/-- Modelled from the spec: look up a key in the old entries.  Only the
first entry carrying the key is in the key-to-node mapping (first
occurrence wins); if that entry is already consumed the lookup fails, and
later duplicates are never reached. -/
def tryConsume (k : Key) : List OldEntry → Option (NodeHandle × List OldEntry)
  | [] => none
  | e :: es =>
    if e.key = k then
      if e.consumed then none
      else some (e.node, { e with consumed := true } :: es)
    else
      match tryConsume k es with
      | none => none
      | some q => some (q.1, e :: q.2)

/-- Modelled from the spec: walk the new data in order; a new datum whose
key matches an unconsumed mapped old entry becomes an update slot (the
node with its bound datum overwritten), any other new datum becomes an
enter placeholder.  Returns the parallel update and enter sequences and
the final entry state. -/
def joinNew (parentN : NodeHandle) :
    List OldEntry → Nat → List (Datum × Key) →
      List (Option NodeHandle) × List (Option EnterPlaceholder) × List OldEntry
  | es, _, [] => ([], [], es)
  | es, j, dk :: rest =>
    match tryConsume dk.2 es with
    | some q =>
      let r := joinNew parentN q.2 (j + 1) rest
      (some { q.1 with boundDatum := some dk.1 } :: r.1, none :: r.2.1, r.2.2)
    | none =>
      let r := joinNew parentN es (j + 1) rest
      (none :: r.1, some { datum := dk.1, index := j, parent := parentN } :: r.2.1, r.2.2)

/-- The nodes of the entries not yet consumed, in their original order. -/
def unconsumedNodes (es : List OldEntry) : List NodeHandle :=
  (es.filter fun e => !e.consumed).map OldEntry.node

/-- Modelled from the spec: the per-group join on pre-keyed inputs.  Old
nodes never consumed become exit, in their original relative order. -/
def joinCore (parentN : NodeHandle) (old : List (NodeHandle × Key)) (nw : List (Datum × Key)) :
    GroupJoinResult :=
  let entries := old.map fun p => { node := p.1, key := p.2, consumed := false : OldEntry }
  let r := joinNew parentN entries 0 nw
  { update := r.1, enter := r.2.1, exit := unconsumedNodes r.2.2 }

/-- Modelled from the spec: the data join of one group.  Computes the old
and new keys (failing if the key function throws) and runs the keyed
correspondence. -/
def joinGroup (ks : KeySpec) (g : Group) (newData : List Datum) : Option GroupJoinResult :=
  match oldKeys ks g.nodes, newKeys ks newData with
  | some ok, some nk => some (joinCore g.parent (g.nodes.zip ok) (newData.zip nk))
  | _, _ => none

/-- Modelled from the spec: the data provider of a join is either a fixed
sequence applied to every group, or a function of the group parent's bound
datum and the group index. -/
inductive DataProvider where
  | const : List Datum → DataProvider
  | perGroup : (Option Datum → Nat → List Datum) → DataProvider

/-- The data sequence a provider yields for one group. -/
def DataProvider.dataFor : DataProvider → Group → Nat → List Datum
  | .const ds, _, _ => ds
  | .perGroup f, g, i => f g.parent.boundDatum i

/-- Modelled from the spec: join every group of the selection
independently, threading the group index; a key-function failure in any
group aborts the whole join call with no partial result. -/
def joinAux (dp : DataProvider) (ks : KeySpec) : Nat → List Group → Option (List GroupJoinResult)
  | _, [] => some []
  | i, g :: gs =>
    match joinGroup ks g (dp.dataFor g i), joinAux dp ks (i + 1) gs with
    | some r, some rs => some (r :: rs)
    | _, _ => none

/-- Modelled from the spec: `join(selection, dataProvider, keyFn?)`, the
Data Join Engine entry point. -/
def join (sel : Selection) (dp : DataProvider) (ks : KeySpec) :
    Option (List GroupJoinResult) :=
  joinAux dp ks 0 sel

/-- Modelled from the spec: the Materializer.  For each enter placeholder
the node factory produces a fresh node identity; the new NodeHandle gets
the placeholder's datum as bound datum and the placeholder's parent, and
is written back into the update sequence at the same position.  Slots
without a placeholder keep the originally matched update node. -/
def materializeGroup (factory : Datum → Nat → Nat) (r : GroupJoinResult) :
    List (Option NodeHandle) :=
  List.zipWith
    (fun u e =>
      match e with
      | some ph =>
        some { id := factory ph.datum ph.index, boundDatum := some ph.datum,
               parent := some ph.parent.id : NodeHandle }
      | none => u)
    r.update r.enter

/-- All non-empty elements of a selection, across its groups in order. -/
def Selection.allNodes (sel : Selection) : List NodeHandle :=
  (sel.map Group.nodes).flatten

/-- Modelled from the spec: `selectAll`.  Query matching is delegated to a
host collaborator (`query` yields each context element's matching
descendants); every non-empty context element becomes a new Group whose
parent is that element, its slots the found descendants unchanged (no
data propagation). -/
def selectAll (query : NodeHandle → List NodeHandle) (sel : Selection) : Selection :=
  (Selection.allNodes sel).map fun p => { parent := p, slots := (query p).map some }

/-- Modelled from the spec: `selectOne`.  For each element the host query
collaborator finds at most one matching descendant; grouping is preserved
(unmatched elements become empty slots) and the found child inherits the
context element's bound datum by simple assignment. -/
def selectOne (query : NodeHandle → Option NodeHandle) (sel : Selection) : Selection :=
  sel.map fun g =>
    { parent := g.parent
      slots := g.slots.map fun s =>
        s.bind fun p => (query p).map fun c => { c with boundDatum := p.boundDatum } }

/-- Modelled from the spec: `append`.  Like `selectOne` it preserves
grouping and propagates the bound datum, but creates a brand-new
NodeHandle under each element (`freshId` is the host node-creation
collaborator). -/
def appendChild (freshId : NodeHandle → Nat) (sel : Selection) : Selection :=
  sel.map fun g =>
    { parent := g.parent
      slots := g.slots.map fun s =>
        s.map fun p =>
          { id := freshId p, boundDatum := p.boundDatum, parent := some p.id : NodeHandle } }

/-- The document root used by the concrete examples. -/
def rootN : NodeHandle := { id := 0, boundDatum := none, parent := none }

/-- A node bound to a datum, used by the concrete examples. -/
def mkN (i : Nat) (d : Nat) : NodeHandle := { id := i, boundDatum := some d, parent := some 0 }

/-- Result slot of group `i`, slot `j` of a selection, when both exist. -/
def slotAt (sel : Selection) (i j : Nat) : Option (Option NodeHandle) :=
  sel[i]?.bind fun g => g.slots[j]?

/-- Concrete selection used by the C1 witness. -/
def c1Sel : Selection := [{ parent := rootN, slots := [some (mkN 1 1), some (mkN 2 2)] }]

/-- Concrete join output used by the C1 witness. -/
def c1Rs : List GroupJoinResult :=
  [{ update := [some (mkN 1 10), some (mkN 2 20), none],
     enter := [none, none, some { datum := 30, index := 2, parent := rootN }],
     exit := [] }]

/-- The keyed-stability example group: five nodes bound to the data
1..5 encoding the letters A..E. -/
def c2G : Group :=
  { parent := rootN,
    slots := [some (mkN 1 1), some (mkN 2 2), some (mkN 3 3), some (mkN 4 4),
      some (mkN 5 5)] }

/-- The keyed-stability example result of rejoining with 25,5,1,15,9
(the letters Y,E,A,O,I) under the identity key. -/
def c2Res : GroupJoinResult :=
  { update := [none, some (mkN 5 5), some (mkN 1 1), none, none],
    enter := [some { datum := 25, index := 0, parent := rootN }, none, none,
      some { datum := 15, index := 3, parent := rootN },
      some { datum := 9, index := 4, parent := rootN }],
    exit := [mkN 2 2, mkN 3 3, mkN 4 4] }

/-- Concrete two-node group used by several witnesses. -/
def c10G : Group := { parent := rootN, slots := [some (mkN 1 1), some (mkN 2 2)] }

/-- Join result of `c10G` against the data 10, 20, 30. -/
def c10R : GroupJoinResult :=
  { update := [some (mkN 1 10), some (mkN 2 20), none],
    enter := [none, none, some { datum := 30, index := 2, parent := rootN }],
    exit := [] }

/-- Group already bound to the data 4, 8, used by the C4 witness. -/
def c4G : Group := { parent := rootN, slots := [some (mkN 1 4), some (mkN 2 8)] }

/-- Result of rejoining `c4G` with the same data 4, 8. -/
def c4R : GroupJoinResult :=
  { update := [some (mkN 1 4), some (mkN 2 8)], enter := [none, none], exit := [] }

/-- Group with two nodes sharing the key 7, used for duplicate-key claims. -/
def c8G : Group := { parent := rootN, slots := [some (mkN 1 7), some (mkN 2 7)] }

/-- Result of joining `c8G` with the single datum 7 under the identity key. -/
def c8R : GroupJoinResult :=
  { update := [some (mkN 1 7)], enter := [none], exit := [mkN 2 7] }

/-- Concrete host query used by witnesses: node 1 has one descendant,
every other node has none. -/
def c6Q : NodeHandle → List NodeHandle :=
  fun n => if n.id = 1 then [{ id := 10, boundDatum := none, parent := some 1 }] else []

/-! ### Properties of key evaluation -/

theorem evalKeys_length (f : Option Datum → Option Key) :
    ∀ xs ks, evalKeys f xs = some ks → ks.length = xs.length := by
  intro xs
  induction xs with
  | nil => intro ks h; simp [evalKeys] at h; simp [← h]
  | cons d ds ih =>
    intro ks h
    simp only [evalKeys] at h
    cases hd : f d with
    | none => rw [hd] at h; simp at h
    | some k =>
      rw [hd] at h
      cases hr : evalKeys f ds with
      | none => rw [hr] at h; simp at h
      | some ks₂ =>
        rw [hr] at h
        simp at h
        subst h
        simp [ih ks₂ hr]

theorem evalKeys_get (f : Option Datum → Option Key) :
    ∀ xs ks, evalKeys f xs = some ks →
      ∀ i (h₁ : i < xs.length) (h₂ : i < ks.length),
        f (xs.get ⟨i, h₁⟩) = some (ks.get ⟨i, h₂⟩) := by
  intro xs
  induction xs with
  | nil => intro ks h i h₁; exact absurd h₁ (by simp)
  | cons d ds ih =>
    intro ks h i h₁ h₂
    simp only [evalKeys] at h
    cases hd : f d with
    | none => rw [hd] at h; simp at h
    | some k =>
      rw [hd] at h
      cases hr : evalKeys f ds with
      | none => rw [hr] at h; simp at h
      | some ks₂ =>
        rw [hr] at h
        simp at h
        subst h
        cases i with
        | zero => simpa using hd
        | succ i₀ =>
          simp only [List.get_cons_succ]
          exact ih ks₂ hr i₀ (by simpa using h₁) (by simpa using h₂)

theorem evalKeys_eq_none (f : Option Datum → Option Key) :
    ∀ xs d, d ∈ xs → f d = none → evalKeys f xs = none := by
  intro xs
  induction xs with
  | nil => intro d h; simp at h
  | cons x ds ih =>
    intro d h hf
    rcases List.mem_cons.mp h with h₀ | h₀
    · subst h₀; simp [evalKeys, hf]
    · simp only [evalKeys, ih d h₀ hf]
      cases f x <;> simp

/-! ### Properties of the key-to-node lookup -/

theorem tryConsume_eq_none (k : Key) :
    ∀ es, (∀ e ∈ es, e.key ≠ k) → tryConsume k es = none := by
  intro es
  induction es with
  | nil => intro _; simp [tryConsume]
  | cons e es ih =>
    intro h
    simp only [tryConsume]
    rw [if_neg (h e (List.mem_cons_self e es))]
    rw [ih (fun x hx => h x (List.mem_cons_of_mem e hx))]

theorem tryConsume_some (k : Key) :
    ∀ es n es₂, tryConsume k es = some (n, es₂) →
      ∃ i, ∃ hi : i < es.length,
        (es.get ⟨i, hi⟩).key = k ∧ (es.get ⟨i, hi⟩).consumed = false ∧
        n = (es.get ⟨i, hi⟩).node ∧
        (∀ i₀ (h₀ : i₀ < i), (es.get ⟨i₀, Nat.lt_trans h₀ hi⟩).key ≠ k) ∧
        es₂ = es.set i { es.get ⟨i, hi⟩ with consumed := true } := by
  intro es
  induction es with
  | nil => intro n es₂ h; simp [tryConsume] at h
  | cons e es ih =>
    intro n es₂ h
    simp only [tryConsume] at h
    by_cases hk : e.key = k
    · rw [if_pos hk] at h
      by_cases hc : e.consumed
      · simp [hc] at h
      · simp only [hc, if_neg, Bool.false_eq_true, not_false_iff, if_false] at h
        refine ⟨0, by simp, ?_⟩
        simp only [List.get_cons_zero, List.set]
        obtain ⟨h₁, h₂⟩ := Prod.mk.injEq .. ▸ (Option.some.injEq .. ▸ h)
        constructor
        · exact hk
        constructor
        · exact Bool.not_eq_true e.consumed ▸ hc
        constructor
        · exact h₁.symm
        constructor
        · intro i₀ h₀; omega
        · exact h₂.symm
    · rw [if_neg hk] at h
      cases hrec : tryConsume k es with
      | none => rw [hrec] at h; simp at h
      | some q =>
        rw [hrec] at h
        simp only [Option.some.injEq, Prod.mk.injEq] at h
        obtain ⟨hn, hes₂⟩ := h
        obtain ⟨i, hi, hkey, hcons, hnode, hfirst, hset⟩ := ih q.1 q.2 (by rw [hrec])
        refine ⟨i + 1, by simpa using Nat.succ_lt_succ hi, ?_⟩
        simp only [List.get_cons_succ]
        refine ⟨hkey, hcons, by rw [← hn, hnode], ?_, ?_⟩
        · intro i₀ h₀
          cases i₀ with
          | zero => simpa using hk
          | succ i₁ =>
            simp only [List.get_cons_succ]
            exact hfirst i₁ (Nat.lt_of_succ_lt_succ h₀)
        · rw [← hes₂, hset]
          rfl

theorem set_get_self {α : Type} (l : List α) (i : Nat) (hi : i < l.length) :
    l.set i (l.get ⟨i, hi⟩) = l := by
  rw [List.set_eq_take_cons_drop _ hi, List.get_cons_drop, List.take_append_drop]

theorem unconsumedNodes_append (l₁ l₂ : List OldEntry) :
    unconsumedNodes (l₁ ++ l₂) = unconsumedNodes l₁ ++ unconsumedNodes l₂ := by
  simp [unconsumedNodes, List.filter_append]

theorem unconsumedNodes_cons_false (e : OldEntry) (es : List OldEntry)
    (h : e.consumed = false) :
    unconsumedNodes (e :: es) = e.node :: unconsumedNodes es := by
  simp [unconsumedNodes, List.filter_cons, h]

theorem unconsumedNodes_cons_true (e : OldEntry) (es : List OldEntry)
    (h : e.consumed = true) :
    unconsumedNodes (e :: es) = unconsumedNodes es := by
  simp [unconsumedNodes, List.filter_cons, h]

theorem unconsumedNodes_set_perm (es : List OldEntry) (i : Nat) (hi : i < es.length)
    (hc : (es.get ⟨i, hi⟩).consumed = false) :
    List.Perm (unconsumedNodes es)
      ((es.get ⟨i, hi⟩).node ::
        unconsumedNodes (es.set i { es.get ⟨i, hi⟩ with consumed := true })) := by
  have hdec : es = es.take i ++ es.get ⟨i, hi⟩ :: es.drop (i + 1) := by
    rw [List.get_cons_drop, List.take_append_drop]
  rw [List.set_eq_take_cons_drop _ hi]
  rw [unconsumedNodes_append, unconsumedNodes_cons_true _ _ rfl]
  conv_lhs => rw [hdec]
  rw [unconsumedNodes_append, unconsumedNodes_cons_false _ _ hc]
  exact List.perm_middle

theorem map_nodeKey_set (es : List OldEntry) (i : Nat) (hi : i < es.length) :
    (es.set i { es.get ⟨i, hi⟩ with consumed := true }).map (fun e => (e.node, e.key)) =
      es.map (fun e => (e.node, e.key)) := by
  rw [List.map_set]
  show (es.map fun e => (e.node, e.key)).set i
      ((es.get ⟨i, hi⟩).node, (es.get ⟨i, hi⟩).key) = _
  have h₂ : ((es.get ⟨i, hi⟩).node, (es.get ⟨i, hi⟩).key) =
      (es.map fun e => (e.node, e.key)).get ⟨i, by simpa using hi⟩ := by
    simp
  rw [h₂, set_get_self]

/-! ### Shape of the per-group join output -/

theorem joinNew_length_update (p : NodeHandle) :
    ∀ (nw : List (Datum × Key)) (es : List OldEntry) (j : Nat),
      (joinNew p es j nw).1.length = nw.length := by
  intro nw
  induction nw with
  | nil => intro es j; simp [joinNew]
  | cons dk rest ih =>
    intro es j
    simp only [joinNew]
    cases htc : tryConsume dk.2 es with
    | some q => simp [ih q.2 (j + 1)]
    | none => simp [ih es (j + 1)]

theorem joinNew_length_enter (p : NodeHandle) :
    ∀ (nw : List (Datum × Key)) (es : List OldEntry) (j : Nat),
      (joinNew p es j nw).2.1.length = nw.length := by
  intro nw
  induction nw with
  | nil => intro es j; simp [joinNew]
  | cons dk rest ih =>
    intro es j
    simp only [joinNew]
    cases htc : tryConsume dk.2 es with
    | some q => simp [ih q.2 (j + 1)]
    | none => simp [ih es (j + 1)]

theorem joinNew_parallel (p : NodeHandle) :
    ∀ (nw : List (Datum × Key)) (es : List OldEntry) (j : Nat),
      List.Forall₂ (fun (u : Option NodeHandle) (e : Option EnterPlaceholder) =>
          u.isSome = !e.isSome)
        (joinNew p es j nw).1 (joinNew p es j nw).2.1 := by
  intro nw
  induction nw with
  | nil => intro es j; simp [joinNew]
  | cons dk rest ih =>
    intro es j
    simp only [joinNew]
    cases htc : tryConsume dk.2 es with
    | some q =>
      exact List.Forall₂.cons (by simp) (ih q.2 (j + 1))
    | none =>
      exact List.Forall₂.cons (by simp) (ih es (j + 1))

theorem joinNew_count (p : NodeHandle) :
    ∀ (nw : List (Datum × Key)) (es : List OldEntry) (j : Nat),
      (joinNew p es j nw).1.countP Option.isSome +
        (joinNew p es j nw).2.1.countP Option.isSome = nw.length := by
  intro nw
  induction nw with
  | nil => intro es j; simp [joinNew]
  | cons dk rest ih =>
    intro es j
    simp only [joinNew]
    cases htc : tryConsume dk.2 es with
    | some q =>
      have := ih q.2 (j + 1)
      simp [List.countP_cons]
      omega
    | none =>
      have := ih es (j + 1)
      simp [List.countP_cons]
      omega

theorem joinNew_entries_proj (p : NodeHandle) :
    ∀ (nw : List (Datum × Key)) (es : List OldEntry) (j : Nat),
      ((joinNew p es j nw).2.2).map (fun e => (e.node, e.key)) =
        es.map (fun e => (e.node, e.key)) := by
  intro nw
  induction nw with
  | nil => intro es j; simp [joinNew]
  | cons dk rest ih =>
    intro es j
    simp only [joinNew]
    cases htc : tryConsume dk.2 es with
    | some q =>
      obtain ⟨n, es₂⟩ := q
      obtain ⟨i, hi, hkey, hcons, hnode, hfirst, hset⟩ := tryConsume_some dk.2 es n es₂ htc
      have h₁ := ih es₂ (j + 1)
      simp only [h₁]
      rw [hset]
      exact map_nodeKey_set es i hi
    | none =>
      exact ih es (j + 1)

theorem joinNew_entries_length (p : NodeHandle) (nw : List (Datum × Key))
    (es : List OldEntry) (j : Nat) :
    (joinNew p es j nw).2.2.length = es.length := by
  have h := congrArg List.length (joinNew_entries_proj p nw es j)
  simpa using h

theorem joinNew_perm (p : NodeHandle) :
    ∀ (nw : List (Datum × Key)) (es : List OldEntry) (j : Nat),
      List.Perm
        (((joinNew p es j nw).1.filterMap id).map NodeHandle.id ++
          (unconsumedNodes (joinNew p es j nw).2.2).map NodeHandle.id)
        ((unconsumedNodes es).map NodeHandle.id) := by
  intro nw
  induction nw with
  | nil => intro es j; simp [joinNew]
  | cons dk rest ih =>
    intro es j
    simp only [joinNew]
    cases htc : tryConsume dk.2 es with
    | some q =>
      obtain ⟨n, es₂⟩ := q
      obtain ⟨i, hi, hkey, hcons, hnode, hfirst, hset⟩ := tryConsume_some dk.2 es n es₂ htc
      simp only [List.filterMap_cons, id, List.map_cons, List.cons_append]
      have h₂ := (unconsumedNodes_set_perm es i hi hcons).map NodeHandle.id
      rw [← hset] at h₂
      refine List.Perm.trans (List.Perm.cons _ (ih es₂ (j + 1))) ?_
      rw [hnode]
      simpa using h₂.symm
    | none =>
      simp only [List.filterMap_cons, id]
      exact ih es (j + 1)

theorem joinNew_entry_nodeKey (p : NodeHandle) (nw : List (Datum × Key)) (es : List OldEntry)
    (j i : Nat) (hi : i < es.length) (hi₂ : i < (joinNew p es j nw).2.2.length) :
    ((joinNew p es j nw).2.2.get ⟨i, hi₂⟩).node = (es.get ⟨i, hi⟩).node ∧
    ((joinNew p es j nw).2.2.get ⟨i, hi₂⟩).key = (es.get ⟨i, hi⟩).key := by
  have h := congrArg (fun l => l[i]?) (joinNew_entries_proj p nw es j)
  simp only [List.getElem?_map] at h
  rw [List.getElem?_eq_getElem (by simpa using hi₂),
    List.getElem?_eq_getElem (by simpa using hi)] at h
  simp only [Option.map_some, Option.some.injEq, Prod.mk.injEq] at h
  simpa [List.get_eq_getElem] using h

theorem joinNew_cons_some (p : NodeHandle) (es : List OldEntry) (j : Nat)
    (dk : Datum × Key) (rest : List (Datum × Key)) (n : NodeHandle) (es₂ : List OldEntry)
    (h : tryConsume dk.2 es = some (n, es₂)) :
    joinNew p es j (dk :: rest) =
      (some { n with boundDatum := some dk.1 } :: (joinNew p es₂ (j + 1) rest).1,
       none :: (joinNew p es₂ (j + 1) rest).2.1,
       (joinNew p es₂ (j + 1) rest).2.2) := by
  simp [joinNew, h]

theorem joinNew_cons_none (p : NodeHandle) (es : List OldEntry) (j : Nat)
    (dk : Datum × Key) (rest : List (Datum × Key))
    (h : tryConsume dk.2 es = none) :
    joinNew p es j (dk :: rest) =
      (none :: (joinNew p es (j + 1) rest).1,
       some { datum := dk.1, index := j, parent := p } :: (joinNew p es (j + 1) rest).2.1,
       (joinNew p es (j + 1) rest).2.2) := by
  simp [joinNew, h]

theorem joinNew_entry_proj_opt (p : NodeHandle) (nw : List (Datum × Key)) (es : List OldEntry)
    (j i : Nat) (e e₂ : OldEntry)
    (h₁ : es[i]? = some e) (h₂ : (joinNew p es j nw).2.2[i]? = some e₂) :
    e₂.node = e.node ∧ e₂.key = e.key := by
  have h := congrArg (fun l => l[i]?) (joinNew_entries_proj p nw es j)
  simp only [List.getElem?_map, h₁, h₂] at h
  simpa using h

theorem set_consumed_getElem_eq (es : List OldEntry) (i₀ : Nat) (hi₀ : i₀ < es.length)
    (i : Nat) (e : OldEntry) (h : es[i]? = some e) :
    (es.set i₀ { es.get ⟨i₀, hi₀⟩ with consumed := true })[i]? =
      some (if i = i₀ then { e with consumed := true } else e) := by
  by_cases hii : i = i₀
  · subst hii
    rw [List.getElem?_set_self hi₀]
    rw [List.getElem?_eq_getElem hi₀] at h
    simp only [Option.some.injEq] at h
    simp [← h, List.get_eq_getElem, if_pos rfl]
  · rw [List.getElem?_set_ne (fun hh => hii hh.symm), h, if_neg hii]

theorem joinNew_consumed_stable (p : NodeHandle) :
    ∀ (nw : List (Datum × Key)) (es : List OldEntry) (j i : Nat) (e e₂ : OldEntry),
      es[i]? = some e → e.consumed = true →
      (joinNew p es j nw).2.2[i]? = some e₂ → e₂.consumed = true := by
  intro nw
  induction nw with
  | nil =>
    intro es j i e e₂ h₁ hc h₂
    simp only [joinNew] at h₂
    rw [h₁] at h₂
    cases h₂
    exact hc
  | cons dk rest ih =>
    intro es j i e e₂ h₁ hc h₂
    cases htc : tryConsume dk.2 es with
    | some q =>
      obtain ⟨n, es₂⟩ := q
      rw [joinNew_cons_some p es j dk rest n es₂ htc] at h₂
      obtain ⟨i₀, hi₀, hkey, hcons, hnode, hfirst, hset⟩ := tryConsume_some dk.2 es n es₂ htc
      have h₃ : es₂[i]? = some (if i = i₀ then { e with consumed := true } else e) := by
        rw [hset]
        exact set_consumed_getElem_eq es i₀ hi₀ i e h₁
      refine ih es₂ (j + 1) i _ e₂ h₃ ?_ h₂
      by_cases hii : i = i₀ <;> simp [hii, hc]
    | none =>
      rw [joinNew_cons_none p es j dk rest htc] at h₂
      exact ih es (j + 1) i e e₂ h₁ hc h₂

theorem tryConsume_at (k : Key) :
    ∀ (es : List OldEntry) (i : Nat) (hi : i < es.length),
      (es.get ⟨i, hi⟩).key = k → (es.get ⟨i, hi⟩).consumed = false →
      (∀ i₀ (h₀ : i₀ < i), (es.get ⟨i₀, Nat.lt_trans h₀ hi⟩).key ≠ k) →
      tryConsume k es = some ((es.get ⟨i, hi⟩).node,
        es.set i { es.get ⟨i, hi⟩ with consumed := true }) := by
  intro es
  induction es with
  | nil => intro i hi; exact absurd hi (by simp)
  | cons e es ih =>
    intro i hi hk hc hfirst
    cases i with
    | zero =>
      have hk₀ : e.key = k := by simpa using hk
      have hc₀ : e.consumed = false := by simpa using hc
      simp [tryConsume, hk₀, hc₀]
    | succ i₁ =>
      have he : e.key ≠ k := by simpa using hfirst 0 (Nat.succ_pos i₁)
      have hi₁ : i₁ < es.length := by simpa using Nat.lt_of_succ_lt_succ hi
      have hrec := ih i₁ hi₁ (by simpa using hk) (by simpa using hc)
        (fun i₀ h₀ => by simpa using hfirst (i₀ + 1) (Nat.succ_lt_succ h₀))
      simp only [tryConsume]
      rw [if_neg he, hrec]
      simp [List.get_cons_succ]

theorem set_consumed_key_eq (es : List OldEntry) (i₀ : Nat) (hi₀ : i₀ < es.length)
    (i : Nat) (e₀ : OldEntry)
    (h : (es.set i₀ { es.get ⟨i₀, hi₀⟩ with consumed := true })[i]? = some e₀) :
    ∃ e₁, es[i]? = some e₁ ∧ e₁.key = e₀.key ∧ e₁.node = e₀.node := by
  by_cases hii : i = i₀
  · subst hii
    rw [List.getElem?_set_self hi₀] at h
    refine ⟨es.get ⟨i, hi₀⟩, by simp [List.get_eq_getElem], ?_⟩
    cases h
    simp
  · rw [List.getElem?_set_ne (fun hh => hii hh.symm)] at h
    exact ⟨e₀, h, rfl, rfl⟩

theorem joinNew_consumed_src (p : NodeHandle) :
    ∀ (nw : List (Datum × Key)) (es : List OldEntry) (j i : Nat) (e e₂ : OldEntry),
      es[i]? = some e → (joinNew p es j nw).2.2[i]? = some e₂ → e₂.consumed = true →
      e.consumed = true ∨
      ∃ (j₀ : Nat) (dk : Datum × Key), nw[j₀]? = some dk ∧ dk.2 = e.key ∧
        (joinNew p es j nw).1[j₀]? =
          some (some { e.node with boundDatum := some dk.1 }) := by
  intro nw
  induction nw with
  | nil =>
    intro es j i e e₂ h₁ h₂ hc
    simp only [joinNew] at h₂
    rw [h₁] at h₂
    cases h₂
    exact Or.inl hc
  | cons dk rest ih =>
    intro es j i e e₂ h₁ h₂ hc
    cases htc : tryConsume dk.2 es with
    | some q =>
      obtain ⟨n, es₂⟩ := q
      rw [joinNew_cons_some p es j dk rest n es₂ htc] at h₂ ⊢
      obtain ⟨i₀, hi₀, hkey, hcons, hnode, hfirst, hset⟩ := tryConsume_some dk.2 es n es₂ htc
      by_cases hii : i = i₀
      · subst hii
        have he : e = es.get ⟨i, hi₀⟩ := by
          rw [List.getElem?_eq_getElem hi₀] at h₁
          simpa [List.get_eq_getElem] using h₁.symm
        refine Or.inr ⟨0, dk, by simp, by rw [he]; exact hkey.symm, ?_⟩
        rw [List.getElem?_cons_zero]
        rw [hnode, he]
      · have h₃ : es₂[i]? = some e := by
          rw [hset, List.getElem?_set_ne (fun hh => hii hh.symm)]
          exact h₁
        rcases ih es₂ (j + 1) i e e₂ h₃ h₂ hc with hl | ⟨j₀, dk₀, hnw, hkey₀, hupd⟩
        · exact Or.inl hl
        · exact Or.inr ⟨j₀ + 1, dk₀, by simpa using hnw, hkey₀, by simpa using hupd⟩
    | none =>
      rw [joinNew_cons_none p es j dk rest htc] at h₂ ⊢
      rcases ih es (j + 1) i e e₂ h₁ h₂ hc with hl | ⟨j₀, dk₀, hnw, hkey₀, hupd⟩
      · exact Or.inl hl
      · exact Or.inr ⟨j₀ + 1, dk₀, by simpa using hnw, hkey₀, by simpa using hupd⟩

theorem joinNew_consumed_first (p : NodeHandle) :
    ∀ (nw : List (Datum × Key)) (es : List OldEntry) (j i : Nat) (e e₂ : OldEntry),
      es[i]? = some e → (joinNew p es j nw).2.2[i]? = some e₂ → e₂.consumed = true →
      e.consumed = true ∨
      ∀ i₀ e₀, i₀ < i → es[i₀]? = some e₀ → e₀.key ≠ e.key := by
  intro nw
  induction nw with
  | nil =>
    intro es j i e e₂ h₁ h₂ hc
    simp only [joinNew] at h₂
    rw [h₁] at h₂
    cases h₂
    exact Or.inl hc
  | cons dk rest ih =>
    intro es j i e e₂ h₁ h₂ hc
    cases htc : tryConsume dk.2 es with
    | some q =>
      obtain ⟨n, es₂⟩ := q
      rw [joinNew_cons_some p es j dk rest n es₂ htc] at h₂
      obtain ⟨i₀, hi₀, hkey, hcons, hnode, hfirst, hset⟩ := tryConsume_some dk.2 es n es₂ htc
      by_cases hii : i = i₀
      · subst hii
        have he : e = es.get ⟨i, hi₀⟩ := by
          rw [List.getElem?_eq_getElem hi₀] at h₁
          simpa [List.get_eq_getElem] using h₁.symm
        refine Or.inr ?_
        intro i₁ e₀ h₁₀ hg₀
        obtain ⟨hb, hgb⟩ := List.getElem?_eq_some_iff.mp hg₀
        have := hfirst i₁ h₁₀
        rw [he, hkey]
        intro hcon
        exact this (by rw [List.get_eq_getElem, hgb, hcon])
      · have h₃ : es₂[i]? = some e := by
          rw [hset, List.getElem?_set_ne (fun hh => hii hh.symm)]
          exact h₁
        rcases ih es₂ (j + 1) i e e₂ h₃ h₂ hc with hl | hr
        · exact Or.inl hl
        · refine Or.inr ?_
          intro i₁ e₀ h₁₀ hg₀
          have h₄ : es₂[i₁]? = some (if i₁ = i₀ then { e₀ with consumed := true } else e₀) := by
            rw [hset]
            exact set_consumed_getElem_eq es i₀ hi₀ i₁ e₀ hg₀
          have h₅ := hr i₁ _ h₁₀ h₄
          by_cases hix : i₁ = i₀
          · simpa [hix] using h₅
          · simpa [hix] using h₅
    | none =>
      rw [joinNew_cons_none p es j dk rest htc] at h₂
      exact ih es (j + 1) i e e₂ h₁ h₂ hc

theorem joinNew_first_match_consumed (p : NodeHandle) :
    ∀ (nw : List (Datum × Key)) (es : List OldEntry) (j i : Nat) (e : OldEntry),
      es[i]? = some e → e.consumed = false →
      (∀ i₀ e₀, i₀ < i → es[i₀]? = some e₀ → e₀.key ≠ e.key) →
      (∃ (j₀ : Nat) (dk₀ : Datum × Key), nw[j₀]? = some dk₀ ∧ dk₀.2 = e.key) →
      ∃ e₂, (joinNew p es j nw).2.2[i]? = some e₂ ∧ e₂.consumed = true := by
  intro nw
  induction nw with
  | nil =>
    intro es j i e h₁ hc hfirst hmatch
    obtain ⟨j₀, dk₀, hg, _⟩ := hmatch
    simp at hg
  | cons dk rest ih =>
    intro es j i e h₁ hc hfirst hmatch
    obtain ⟨hi, hgi⟩ := List.getElem?_eq_some_iff.mp h₁
    by_cases hk : dk.2 = e.key
    · have hkey : (es.get ⟨i, hi⟩).key = dk.2 := by
        rw [List.get_eq_getElem, hgi, hk]
      have hcons : (es.get ⟨i, hi⟩).consumed = false := by
        rw [List.get_eq_getElem, hgi]; exact hc
      have hfirst₂ : ∀ i₀ (h₀ : i₀ < i),
          (es.get ⟨i₀, Nat.lt_trans h₀ hi⟩).key ≠ dk.2 := by
        intro i₀ h₀
        have h₃ := hfirst i₀ (es.get ⟨i₀, Nat.lt_trans h₀ hi⟩) h₀
          (List.getElem?_eq_getElem (Nat.lt_trans h₀ hi))
        rw [hk]
        exact h₃
      have htc := tryConsume_at dk.2 es i hi hkey hcons hfirst₂
      rw [joinNew_cons_some p es j dk rest _ _ htc]
      set es₂ := es.set i { es.get ⟨i, hi⟩ with consumed := true } with hes₂
      have h₄ : es₂[i]? = some { es.get ⟨i, hi⟩ with consumed := true } := by
        rw [hes₂]
        exact List.getElem?_set_self hi
      have hlen : i < (joinNew p es₂ (j + 1) rest).2.2.length := by
        rw [joinNew_entries_length]
        simpa [hes₂] using hi
      refine ⟨(joinNew p es₂ (j + 1) rest).2.2.get ⟨i, hlen⟩, ?_, ?_⟩
      · simp [List.get_eq_getElem, List.getElem?_eq_getElem hlen]
      · exact joinNew_consumed_stable p rest es₂ (j + 1) i _ _ h₄ (by simp)
          (by simp [List.get_eq_getElem, List.getElem?_eq_getElem hlen])
    · have hmatch₂ : ∃ (j₀ : Nat) (dk₀ : Datum × Key),
          rest[j₀]? = some dk₀ ∧ dk₀.2 = e.key := by
        obtain ⟨j₀, dk₀, hg, hk₀⟩ := hmatch
        cases j₀ with
        | zero =>
          rw [List.getElem?_cons_zero] at hg
          cases hg
          exact absurd hk₀ hk
        | succ j₁ =>
          rw [List.getElem?_cons_succ] at hg
          exact ⟨j₁, dk₀, hg, hk₀⟩
      cases htc : tryConsume dk.2 es with
      | some q =>
        obtain ⟨n, es₂⟩ := q
        rw [joinNew_cons_some p es j dk rest n es₂ htc]
        obtain ⟨i₀, hi₀, hkey, hcons, hnode, hfirst₀, hset⟩ := tryConsume_some dk.2 es n es₂ htc
        have hii : i ≠ i₀ := by
          intro hcon
          subst hcon
          apply hk
          rw [← hkey, List.get_eq_getElem, hgi]
        have h₃ : es₂[i]? = some e := by
          rw [hset, List.getElem?_set_ne (fun hh => hii hh.symm)]
          exact h₁
        refine ih es₂ (j + 1) i e h₃ hc ?_ hmatch₂
        intro i₁ e₀ h₁₀ hg₀
        rw [hset] at hg₀
        obtain ⟨e₁, hge₁, hk₁, _⟩ := set_consumed_key_eq es i₀ hi₀ i₁ e₀ hg₀
        rw [← hk₁]
        exact hfirst i₁ e₁ h₁₀ hge₁
      | none =>
        rw [joinNew_cons_none p es j dk rest htc]
        exact ih es (j + 1) i e h₁ hc hfirst hmatch₂

theorem joinNew_first_update (p : NodeHandle) :
    ∀ (nw : List (Datum × Key)) (es : List OldEntry) (j i : Nat) (e : OldEntry),
      es[i]? = some e → e.consumed = false →
      (∀ i₀ e₀, i₀ ≠ i → es[i₀]? = some e₀ → e₀.key ≠ e.key) →
      ∀ (j₀ : Nat) (dk₀ : Datum × Key), nw[j₀]? = some dk₀ → dk₀.2 = e.key →
      (∀ j₁ dk₁, j₁ < j₀ → nw[j₁]? = some dk₁ → dk₁.2 ≠ e.key) →
      (joinNew p es j nw).1[j₀]? =
        some (some { e.node with boundDatum := some dk₀.1 }) := by
  intro nw
  induction nw with
  | nil =>
    intro es j i e h₁ hc huniq j₀ dk₀ hg
    simp at hg
  | cons dk rest ih =>
    intro es j i e h₁ hc huniq j₀ dk₀ hg hk₀ hfirstnew
    obtain ⟨hi, hgi⟩ := List.getElem?_eq_some_iff.mp h₁
    cases j₀ with
    | zero =>
      have hdk : dk = dk₀ := by simpa using hg
      have hkey : (es.get ⟨i, hi⟩).key = dk₀.2 := by
        rw [List.get_eq_getElem, hgi, hk₀]
      have hcons : (es.get ⟨i, hi⟩).consumed = false := by
        rw [List.get_eq_getElem, hgi]; exact hc
      have hfirst₂ : ∀ i₁ (h₀ : i₁ < i),
          (es.get ⟨i₁, Nat.lt_trans h₀ hi⟩).key ≠ dk₀.2 := by
        intro i₁ h₀
        have h₃ := huniq i₁ (es.get ⟨i₁, Nat.lt_trans h₀ hi⟩) (Nat.ne_of_lt h₀)
          (List.getElem?_eq_getElem (Nat.lt_trans h₀ hi))
        rw [hk₀]
        exact h₃
      have htc := tryConsume_at dk₀.2 es i hi hkey hcons hfirst₂
      rw [joinNew_cons_some p es j dk rest _ _ (by rw [hdk]; exact htc)]
      rw [List.getElem?_cons_zero]
      have hnn : (es.get ⟨i, hi⟩).node = e.node := by
        rw [List.get_eq_getElem, hgi]
      rw [hnn, hdk]
    | succ j₁ =>
      rw [List.getElem?_cons_succ] at hg
      have hkhead : dk.2 ≠ e.key :=
        hfirstnew 0 dk (Nat.succ_pos j₁) (by simp)
      have hfirstnew₂ : ∀ j₂ dk₂, j₂ < j₁ → rest[j₂]? = some dk₂ → dk₂.2 ≠ e.key := by
        intro j₂ dk₂ h₀ hg₂
        exact hfirstnew (j₂ + 1) dk₂ (Nat.succ_lt_succ h₀) (by simpa using hg₂)
      cases htc : tryConsume dk.2 es with
      | some q =>
        obtain ⟨n, es₂⟩ := q
        rw [joinNew_cons_some p es j dk rest n es₂ htc]
        obtain ⟨i₀, hi₀, hkey, hcons, hnode, hfirst₀, hset⟩ := tryConsume_some dk.2 es n es₂ htc
        have hii : i ≠ i₀ := by
          intro hcon
          subst hcon
          apply hkhead
          rw [← hkey, List.get_eq_getElem, hgi]
        have h₃ : es₂[i]? = some e := by
          rw [hset, List.getElem?_set_ne (fun hh => hii hh.symm)]
          exact h₁
        have huniq₂ : ∀ i₁ e₀, i₁ ≠ i → es₂[i₁]? = some e₀ → e₀.key ≠ e.key := by
          intro i₁ e₀ h₁₀ hg₀
          rw [hset] at hg₀
          obtain ⟨e₁, hge₁, hk₁, _⟩ := set_consumed_key_eq es i₀ hi₀ i₁ e₀ hg₀
          rw [← hk₁]
          exact huniq i₁ e₁ h₁₀ hge₁
        have := ih es₂ (j + 1) i e h₃ hc huniq₂ j₁ dk₀ hg hk₀ hfirstnew₂
        simpa using this
      | none =>
        rw [joinNew_cons_none p es j dk rest htc]
        have := ih es (j + 1) i e h₁ hc huniq j₁ dk₀ hg hk₀ hfirstnew₂
        simpa using this

/-! ### The positional (default key) join -/

theorem tryConsume_append (k : Key) :
    ∀ (pre es : List OldEntry), (∀ e ∈ pre, e.key ≠ k) →
      tryConsume k (pre ++ es) =
        (tryConsume k es).map (fun q => (q.1, pre ++ q.2)) := by
  intro pre
  induction pre with
  | nil =>
    intro es h
    simp only [List.nil_append]
    cases tryConsume k es <;> simp
  | cons e pre ih =>
    intro es h
    have he : e.key ≠ k := h e (List.mem_cons_self e pre)
    simp only [List.cons_append, tryConsume]
    rw [if_neg he]
    simp only [List.append_eq]
    rw [ih es (fun x hx => h x (List.mem_cons_of_mem e hx))]
    cases tryConsume k es <;> simp

theorem joinNew_byIndex (p : NodeHandle) :
    ∀ (nd : List Datum) (pre es : List OldEntry) (j : Nat),
      (∀ e ∈ pre, e.key < j) →
      (∀ e ∈ pre, e.consumed = true) →
      (∀ i (hi : i < es.length), (es.get ⟨i, hi⟩).key = j + i) →
      (∀ i (hi : i < es.length), (es.get ⟨i, hi⟩).consumed = false) →
      joinNew p (pre ++ es) j (nd.zip (List.range' j nd.length)) =
        (List.zipWith (fun e d => some { e.node with boundDatum := some d }) es nd ++
           List.replicate (nd.length - es.length) none,
         List.replicate (min nd.length es.length) none ++
           (List.enumFrom (j + es.length) (nd.drop es.length)).map
             (fun q => some { datum := q.2, index := q.1, parent := p }),
         pre ++ (es.take nd.length).map (fun e => { e with consumed := true }) ++
           es.drop nd.length) := by
  intro nd
  induction nd with
  | nil =>
    intro pre es j hpk hpc hek hec
    simp [joinNew]
  | cons d nd ih =>
    intro pre es j hpk hpc hek hec
    rw [List.length_cons, List.range'_succ]
    simp only [List.zip_cons_cons]
    cases es with
    | nil =>
      have htc : tryConsume j (pre ++ []) = none := by
        rw [List.append_nil]
        exact tryConsume_eq_none j pre (fun e he => Nat.ne_of_lt (hpk e he))
      rw [joinNew_cons_none p (pre ++ []) j (d, j) _ htc]
      rw [ih pre [] (j + 1) (fun e he => Nat.lt_succ_of_lt (hpk e he)) hpc
        (fun i hi => absurd hi (by simp)) (fun i hi => absurd hi (by simp))]
      simp [List.replicate_succ]
    | cons e es₀ =>
      have hek0 : e.key = j := by
        have := hek 0 (by simp)
        simpa using this
      have hec0 : e.consumed = false := by
        have := hec 0 (by simp)
        simpa using this
      have htc : tryConsume j (pre ++ e :: es₀) =
          some (e.node, pre ++ { e with consumed := true } :: es₀) := by
        rw [tryConsume_append j pre _ (fun x hx => Nat.ne_of_lt (hpk x hx))]
        simp [tryConsume, hek0, hec0]
      rw [joinNew_cons_some p _ j (d, j) _ _ _ htc]
      have hassoc : pre ++ { e with consumed := true } :: es₀ =
          (pre ++ [{ e with consumed := true }]) ++ es₀ := by simp
      have hpk₂ : ∀ x ∈ pre ++ [{ e with consumed := true }], x.key < j + 1 := by
        intro x hx
        rcases List.mem_append.mp hx with hx₀ | hx₀
        · exact Nat.lt_succ_of_lt (hpk x hx₀)
        · simp only [List.mem_singleton] at hx₀
          subst hx₀
          simpa [hek0] using Nat.lt_succ_self j
      have hpc₂ : ∀ x ∈ pre ++ [{ e with consumed := true }], x.consumed = true := by
        intro x hx
        rcases List.mem_append.mp hx with hx₀ | hx₀
        · exact hpc x hx₀
        · simp only [List.mem_singleton] at hx₀
          subst hx₀
          rfl
      have hek₂ : ∀ i (hi : i < es₀.length), (es₀.get ⟨i, hi⟩).key = (j + 1) + i := by
        intro i hi
        have h₆ := hek (i + 1) (Nat.succ_lt_succ hi)
        simp only [List.get_cons_succ] at h₆
        have h₇ : (j + 1) + i = j + (i + 1) := by omega
        rw [h₇]
        exact h₆
      have hec₂ : ∀ i (hi : i < es₀.length), (es₀.get ⟨i, hi⟩).consumed = false := by
        intro i hi
        have h₆ := hec (i + 1) (Nat.succ_lt_succ hi)
        simp only [List.get_cons_succ] at h₆
        exact h₆
      have hres := ih (pre ++ [{ e with consumed := true }]) es₀ (j + 1) hpk₂ hpc₂ hek₂ hec₂
      rw [hassoc, hres]
      refine Prod.ext ?_ (Prod.ext ?_ ?_)
      · simp
      · show none :: _ = _
        have hmin : (nd.length + 1) ⊓ (e :: es₀).length = nd.length ⊓ es₀.length + 1 := by
          simp only [List.length_cons]
          omega
        rw [hmin]
        simp only [List.length_cons, List.replicate_succ, List.drop_succ_cons,
          List.cons_append]
        have hj : j + (es₀.length + 1) = (j + 1) + es₀.length := by omega
        rw [hj]
      · show (pre ++ [{ e with consumed := true }]) ++ _ ++ _ = _
        simp only [List.length_cons, List.take_succ_cons, List.drop_succ_cons,
          List.map_cons]
        simp

/-! ### Group-level join properties -/

theorem oldKeys_length (ks : KeySpec) (ns : List NodeHandle) (ok : List Key)
    (h : oldKeys ks ns = some ok) : ok.length = ns.length := by
  cases ks with
  | byIndex =>
    simp only [oldKeys, Option.some.injEq] at h
    simp [← h]
  | byKey f =>
    simp only [oldKeys] at h
    have := evalKeys_length f _ _ h
    simpa using this

theorem newKeys_length (ks : KeySpec) (ds : List Datum) (nk : List Key)
    (h : newKeys ks ds = some nk) : nk.length = ds.length := by
  cases ks with
  | byIndex =>
    simp only [newKeys, Option.some.injEq] at h
    simp [← h]
  | byKey f =>
    simp only [newKeys] at h
    have := evalKeys_length f _ _ h
    simpa using this

theorem joinGroup_some (ks : KeySpec) (g : Group) (nd : List Datum) (r : GroupJoinResult)
    (h : joinGroup ks g nd = some r) :
    ∃ ok nk, oldKeys ks g.nodes = some ok ∧ newKeys ks nd = some nk ∧
      r = joinCore g.parent (g.nodes.zip ok) (nd.zip nk) := by
  simp only [joinGroup] at h
  cases hok : oldKeys ks g.nodes with
  | none => rw [hok] at h; simp at h
  | some ok =>
    rw [hok] at h
    cases hnk : newKeys ks nd with
    | none => rw [hnk] at h; simp at h
    | some nk =>
      rw [hnk] at h
      simp only [Option.some.injEq] at h
      exact ⟨ok, nk, rfl, rfl, h.symm⟩

theorem unconsumedNodes_fresh (old : List (NodeHandle × Key)) :
    unconsumedNodes (old.map fun p => { node := p.1, key := p.2, consumed := false : OldEntry }) =
      old.map Prod.fst := by
  induction old with
  | nil => simp [unconsumedNodes]
  | cons p old ih =>
    simp only [List.map_cons]
    rw [unconsumedNodes_cons_false _ _ rfl, ih]

theorem unconsumedNodes_marked (l : List OldEntry) :
    unconsumedNodes (l.map fun e => { e with consumed := true }) = [] := by
  induction l with
  | nil => simp [unconsumedNodes]
  | cons e l ih =>
    simp only [List.map_cons]
    rw [unconsumedNodes_cons_true _ _ rfl, ih]

theorem zipWith_entries (ns : List NodeHandle) :
    ∀ (ks : List Key) (nd : List Datum),
      List.zipWith (fun (e : OldEntry) d => some { e.node with boundDatum := some d })
        ((ns.zip ks).map fun p => { node := p.1, key := p.2, consumed := false : OldEntry })
        nd =
      List.zipWith (fun n d => some { n with boundDatum := some d }) ns (nd.take ks.length) := by
  induction ns with
  | nil => intro ks nd; simp
  | cons n ns ih =>
    intro ks nd
    cases ks with
    | nil => simp
    | cons k ks =>
      cases nd with
      | nil => simp
      | cons d nd =>
        simp only [List.zip_cons_cons, List.map_cons, List.zipWith_cons_cons,
          List.length_cons, List.take_succ_cons]
        rw [ih ks nd]

theorem zipWith_take_right {α β γ : Type} (f : α → β → γ) :
    ∀ (l₁ : List α) (l₂ : List β),
      List.zipWith f l₁ (l₂.take l₁.length) = List.zipWith f l₁ l₂ := by
  intro l₁
  induction l₁ with
  | nil => intro l₂; simp
  | cons a l₁ ih =>
    intro l₂
    cases l₂ with
    | nil => simp
    | cons b l₂ =>
      simp only [List.length_cons, List.take_succ_cons, List.zipWith_cons_cons]
      rw [ih l₂]

theorem entries_key (ns : List NodeHandle) (i : Nat)
    (hi : i < (((ns.zip (List.range ns.length)).map
      fun p => { node := p.1, key := p.2, consumed := false : OldEntry })).length) :
    ((((ns.zip (List.range ns.length)).map
      fun p => { node := p.1, key := p.2, consumed := false : OldEntry })).get ⟨i, hi⟩).key =
      0 + i := by
  have hi₂ : i < (ns.zip (List.range ns.length)).length := by simpa using hi
  have hi₃ : i < ns.length := by
    simpa using hi₂
  simp [List.get_eq_getElem, List.getElem_zip, Nat.zero_add]

theorem joinGroup_byIndex (g : Group) (nd : List Datum) :
    joinGroup .byIndex g nd = some
      { update := List.zipWith (fun n d => some { n with boundDatum := some d }) g.nodes nd ++
          List.replicate (nd.length - g.nodes.length) none,
        enter := List.replicate (min nd.length g.nodes.length) none ++
          (List.enumFrom g.nodes.length (nd.drop g.nodes.length)).map
            (fun q => some { datum := q.2, index := q.1, parent := g.parent }),
        exit := g.nodes.drop nd.length } := by
  simp only [joinGroup, oldKeys, newKeys, Option.some.injEq]
  simp only [joinCore]
  have hb := joinNew_byIndex g.parent nd []
    ((g.nodes.zip (List.range g.nodes.length)).map
      fun p => { node := p.1, key := p.2, consumed := false : OldEntry })
    0 (by simp) (by simp) (entries_key g.nodes)
    (by
      intro i hi
      have hi₂ : i < (g.nodes.zip (List.range g.nodes.length)).length := by simpa using hi
      simp [List.get_eq_getElem])
  rw [List.nil_append] at hb
  rw [show List.range nd.length = List.range' 0 nd.length from List.range_eq_range' ..]
  rw [hb]
  have hlen : ((g.nodes.zip (List.range g.nodes.length)).map
      fun p => { node := p.1, key := p.2, consumed := false : OldEntry }).length =
      g.nodes.length := by simp
  congr 1
  · rw [zipWith_entries, List.length_range, zipWith_take_right, hlen]
  · rw [hlen, Nat.zero_add]
  · rw [List.nil_append, unconsumedNodes_append, unconsumedNodes_marked, List.nil_append]
    rw [← List.map_drop, unconsumedNodes_fresh, List.map_drop]
    congr 1
    exact List.map_fst_zip g.nodes (List.range g.nodes.length) (by simp)

theorem joinGroup_partition (ks : KeySpec) (g : Group) (nd : List Datum) (r : GroupJoinResult)
    (h : joinGroup ks g nd = some r) :
    r.update.countP Option.isSome + r.enter.countP Option.isSome = nd.length ∧
    List.Perm ((r.update.filterMap id).map NodeHandle.id ++ r.exit.map NodeHandle.id)
      (g.nodes.map NodeHandle.id) := by
  obtain ⟨ok, nk, hok, hnk, hr⟩ := joinGroup_some ks g nd r h
  subst hr
  have hnkl := newKeys_length ks nd nk hnk
  have hokl := oldKeys_length ks g.nodes ok hok
  have hzl : (nd.zip nk).length = nd.length := by simp [hnkl]
  constructor
  · simp only [joinCore]
    rw [joinNew_count, hzl]
  · simp only [joinCore]
    have hperm := joinNew_perm g.parent (nd.zip nk)
      ((g.nodes.zip ok).map fun p => { node := p.1, key := p.2, consumed := false : OldEntry }) 0
    rw [unconsumedNodes_fresh,
      List.map_fst_zip g.nodes ok (Nat.le_of_eq hokl.symm)] at hperm
    exact hperm

theorem joinGroup_parallel (ks : KeySpec) (g : Group) (nd : List Datum) (r : GroupJoinResult)
    (h : joinGroup ks g nd = some r) :
    r.update.length = nd.length ∧ r.enter.length = nd.length ∧
    ∀ j (hju : j < r.update.length) (hje : j < r.enter.length),
      (r.update.get ⟨j, hju⟩).isSome = !(r.enter.get ⟨j, hje⟩).isSome := by
  obtain ⟨ok, nk, hok, hnk, hr⟩ := joinGroup_some ks g nd r h
  subst hr
  have hnkl := newKeys_length ks nd nk hnk
  have hzl : (nd.zip nk).length = nd.length := by simp [hnkl]
  have hf := joinNew_parallel g.parent (nd.zip nk)
    ((g.nodes.zip ok).map fun p => { node := p.1, key := p.2, consumed := false : OldEntry }) 0
  obtain ⟨hlen₂, hget⟩ := List.forall₂_iff_get.mp hf
  refine ⟨?_, ?_, ?_⟩
  · simp only [joinCore]
    rw [joinNew_length_update, hzl]
  · simp only [joinCore]
    rw [joinNew_length_enter, hzl]
  · intro j hju hje
    exact hget j (by simpa [joinCore] using hju) (by simpa [joinCore] using hje)

theorem joinGroup_keyFail (f : Option Datum → Option Key) (g : Group) (nd : List Datum)
    (h : (∃ n ∈ g.nodes, f n.boundDatum = none) ∨ (∃ d ∈ nd, f (some d) = none)) :
    joinGroup (.byKey f) g nd = none := by
  rcases h with ⟨n, hn, hf⟩ | ⟨d, hd, hf⟩
  · have h₂ : oldKeys (.byKey f) g.nodes = none := by
      simp only [oldKeys]
      exact evalKeys_eq_none f _ n.boundDatum (List.mem_map_of_mem _ hn) hf
    simp [joinGroup, h₂]
  · have h₂ : newKeys (.byKey f) nd = none := by
      simp only [newKeys]
      exact evalKeys_eq_none f _ (some d) (List.mem_map_of_mem _ hd) hf
    simp only [joinGroup, h₂]
    cases oldKeys (.byKey f) g.nodes <;> simp

/-! ### Selection-level join -/

theorem joinAux_some (dp : DataProvider) (ks : KeySpec) :
    ∀ (gs : List Group) (k : Nat) (rs : List GroupJoinResult),
      joinAux dp ks k gs = some rs →
      rs.length = gs.length ∧
      ∀ i (hi : i < gs.length) (hri : i < rs.length),
        joinGroup ks (gs.get ⟨i, hi⟩) (dp.dataFor (gs.get ⟨i, hi⟩) (k + i)) =
          some (rs.get ⟨i, hri⟩) := by
  intro gs
  induction gs with
  | nil =>
    intro k rs h
    simp only [joinAux, Option.some.injEq] at h
    subst h
    exact ⟨rfl, fun i hi => absurd hi (by simp)⟩
  | cons g gs ih =>
    intro k rs h
    simp only [joinAux] at h
    cases hjg : joinGroup ks g (dp.dataFor g k) with
    | none => rw [hjg] at h; simp at h
    | some r =>
      rw [hjg] at h
      cases hja : joinAux dp ks (k + 1) gs with
      | none => rw [hja] at h; simp at h
      | some rs₂ =>
        rw [hja] at h
        simp only [Option.some.injEq] at h
        subst h
        obtain ⟨hl, hg⟩ := ih (k + 1) rs₂ hja
        refine ⟨by simp [hl], ?_⟩
        intro i hi hri
        cases i with
        | zero =>
          simpa using hjg
        | succ i₁ =>
          have h₃ := hg i₁ (by simpa using hi) (by simpa using hri)
          have h₄ : k + (i₁ + 1) = (k + 1) + i₁ := by omega
          rw [h₄]
          simpa using h₃

theorem joinAux_none (dp : DataProvider) (ks : KeySpec) :
    ∀ (gs : List Group) (k i : Nat) (hi : i < gs.length),
      joinGroup ks (gs.get ⟨i, hi⟩) (dp.dataFor (gs.get ⟨i, hi⟩) (k + i)) = none →
      joinAux dp ks k gs = none := by
  intro gs
  induction gs with
  | nil => intro k i hi; exact absurd hi (by simp)
  | cons g gs ih =>
    intro k i hi h
    simp only [joinAux]
    cases i with
    | zero =>
      have h₂ : joinGroup ks g (dp.dataFor g k) = none := h
      rw [h₂]
    | succ i₁ =>
      have h₃ : joinGroup ks (gs.get ⟨i₁, by simpa using hi⟩)
          (dp.dataFor (gs.get ⟨i₁, by simpa using hi⟩) ((k + 1) + i₁)) = none := by
        have h₄ : (k + 1) + i₁ = k + (i₁ + 1) := by omega
        rw [h₄]
        simpa using h
      rw [ih (k + 1) i₁ (by simpa using hi) h₃]
      cases joinGroup ks g (dp.dataFor g k) <;> simp

/-! ### Claim theorems -/

/-- Claim C1: for every `join(selection, dataProvider, keyFn?)` call and
every group, the number of filled update slots plus the number of enter
placeholders equals the length of that group's new data sequence, and the
non-empty old nodes of the group are distributed exactly (by identity)
between the update result and the exit result: never both, never
neither. -/
theorem c1_join_partition (sel : Selection) (dp : DataProvider) (ks : KeySpec)
    (rs : List GroupJoinResult) (hj : join sel dp ks = some rs) :
    rs.length = sel.length ∧
    ∀ i (hi : i < sel.length) (hri : i < rs.length),
      (rs.get ⟨i, hri⟩).update.countP Option.isSome +
          (rs.get ⟨i, hri⟩).enter.countP Option.isSome =
        (dp.dataFor (sel.get ⟨i, hi⟩) i).length ∧
      List.Perm
        (((rs.get ⟨i, hri⟩).update.filterMap id).map NodeHandle.id ++
          (rs.get ⟨i, hri⟩).exit.map NodeHandle.id)
        ((sel.get ⟨i, hi⟩).nodes.map NodeHandle.id) := by
  obtain ⟨hl, hg⟩ := joinAux_some dp ks sel 0 rs hj
  refine ⟨hl, ?_⟩
  intro i hi hri
  have h₂ := hg i hi hri
  rw [Nat.zero_add] at h₂
  exact joinGroup_partition ks _ _ _ h₂

/-- Witness for C1: the partition property evaluated on a concrete
positional join of two bound nodes against three data values. -/
theorem c1_join_partition_witness :
    c1Rs.length = c1Sel.length ∧
    ∀ i (hi : i < c1Sel.length) (hri : i < c1Rs.length),
      (c1Rs.get ⟨i, hri⟩).update.countP Option.isSome +
          (c1Rs.get ⟨i, hri⟩).enter.countP Option.isSome =
        ((DataProvider.const [10, 20, 30]).dataFor (c1Sel.get ⟨i, hi⟩) i).length ∧
      List.Perm
        (((c1Rs.get ⟨i, hri⟩).update.filterMap id).map NodeHandle.id ++
          (c1Rs.get ⟨i, hri⟩).exit.map NodeHandle.id)
        ((c1Sel.get ⟨i, hi⟩).nodes.map NodeHandle.id) :=
  c1_join_partition c1Sel (.const [10, 20, 30]) .byIndex c1Rs (by decide)

/-- Claim C3: for every join result and every group, update and enter are
parallel sequences of the length of that group's new data, and at each
index exactly one of the two is filled. -/
theorem c3_parallel_slots (sel : Selection) (dp : DataProvider) (ks : KeySpec)
    (rs : List GroupJoinResult) (hj : join sel dp ks = some rs) :
    rs.length = sel.length ∧
    ∀ i (hi : i < sel.length) (hri : i < rs.length),
      (rs.get ⟨i, hri⟩).update.length = (dp.dataFor (sel.get ⟨i, hi⟩) i).length ∧
      (rs.get ⟨i, hri⟩).enter.length = (dp.dataFor (sel.get ⟨i, hi⟩) i).length ∧
      ∀ j (hju : j < (rs.get ⟨i, hri⟩).update.length)
        (hje : j < (rs.get ⟨i, hri⟩).enter.length),
        ((rs.get ⟨i, hri⟩).update.get ⟨j, hju⟩).isSome =
          !((rs.get ⟨i, hri⟩).enter.get ⟨j, hje⟩).isSome := by
  obtain ⟨hl, hg⟩ := joinAux_some dp ks sel 0 rs hj
  refine ⟨hl, ?_⟩
  intro i hi hri
  have h₂ := hg i hi hri
  rw [Nat.zero_add] at h₂
  exact joinGroup_parallel ks _ _ _ h₂

/-- Witness for C3: the parallel-slots invariant evaluated on a concrete
positional join of two bound nodes against three data values. -/
theorem c3_parallel_slots_witness :
    c1Rs.length = c1Sel.length ∧
    ∀ i (hi : i < c1Sel.length) (hri : i < c1Rs.length),
      (c1Rs.get ⟨i, hri⟩).update.length =
        ((DataProvider.const [10, 20, 30]).dataFor (c1Sel.get ⟨i, hi⟩) i).length ∧
      (c1Rs.get ⟨i, hri⟩).enter.length =
        ((DataProvider.const [10, 20, 30]).dataFor (c1Sel.get ⟨i, hi⟩) i).length ∧
      ∀ j (hju : j < (c1Rs.get ⟨i, hri⟩).update.length)
        (hje : j < (c1Rs.get ⟨i, hri⟩).enter.length),
        ((c1Rs.get ⟨i, hri⟩).update.get ⟨j, hju⟩).isSome =
          !((c1Rs.get ⟨i, hri⟩).enter.get ⟨j, hje⟩).isSome :=
  c3_parallel_slots c1Sel (.const [10, 20, 30]) .byIndex c1Rs (by decide)

/-- Claim C9: a key function that fails while evaluating a bound datum or
a new datum of some group makes the whole join call return nothing: no
partial `update, enter, exit` output is produced (and, the model being
pure, the selection and nodes are untouched). -/
theorem c9_keyfn_error (sel : Selection) (dp : DataProvider)
    (f : Option Datum → Option Key) (i : Nat) (hi : i < sel.length)
    (herr : (∃ n ∈ (sel.get ⟨i, hi⟩).nodes, f n.boundDatum = none) ∨
      (∃ d ∈ dp.dataFor (sel.get ⟨i, hi⟩) i, f (some d) = none)) :
    join sel dp (.byKey f) = none := by
  have h₂ := joinGroup_keyFail f (sel.get ⟨i, hi⟩) (dp.dataFor (sel.get ⟨i, hi⟩) i) herr
  exact joinAux_none dp (.byKey f) sel 0 i hi (by rw [Nat.zero_add]; exact h₂)

/-- Witness for C9: a key function that fails on the datum 2 aborts a join
over a group whose second node is bound to 2. -/
theorem c9_keyfn_error_witness :
    join c1Sel (.const [10, 20, 30])
      (.byKey fun d => if d = some 2 then none else d) = none :=
  c9_keyfn_error c1Sel (.const [10, 20, 30])
    (fun d => if d = some 2 then none else d) 0 (by decide)
    (Or.inl ⟨mkN 2 2, by decide, by decide⟩)

theorem filterMap_id_replicate_none {α : Type} (n : Nat) :
    (List.replicate n (none : Option α)).filterMap id = [] := by
  induction n with
  | zero => rfl
  | succ n ih => rw [List.replicate_succ, List.filterMap_cons_none rfl, ih]

theorem filterMap_id_map_some {α β : Type} (f : α → β) (l : List α) :
    (l.map fun a => some (f a)).filterMap id = l.map f := by
  induction l with
  | nil => rfl
  | cons a l ih =>
    simp [List.filterMap_cons, ih]

/-- Claim C10: for every positional (default key) join within one group,
at least one of enter and exit is empty; with more data than nodes the
enter placeholders are exactly the trailing data (entering at the end)
and exit is empty; with fewer data the exit nodes are exactly the
trailing old nodes (removed from the end) and enter is empty; with equal
sizes both are empty. -/
theorem c10_positional_trailing (g : Group) (nd : List Datum) (r : GroupJoinResult)
    (hj : joinGroup .byIndex g nd = some r) :
    (r.enter.filterMap id = [] ∨ r.exit = []) ∧
    (g.nodes.length < nd.length →
      r.enter.filterMap id =
        (List.enumFrom g.nodes.length (nd.drop g.nodes.length)).map
          (fun q => ({ datum := q.2, index := q.1, parent := g.parent } :
            EnterPlaceholder)) ∧
      r.exit = []) ∧
    (nd.length < g.nodes.length →
      r.exit = g.nodes.drop nd.length ∧ r.enter.filterMap id = []) ∧
    (nd.length = g.nodes.length → r.enter.filterMap id = [] ∧ r.exit = []) := by
  have hb := joinGroup_byIndex g nd
  rw [hj] at hb
  injection hb with hb
  subst hb
  have hent : (List.replicate (min nd.length g.nodes.length)
        (none : Option EnterPlaceholder) ++
      (List.enumFrom g.nodes.length (nd.drop g.nodes.length)).map
        (fun q => some ({ datum := q.2, index := q.1, parent := g.parent } :
          EnterPlaceholder))).filterMap id =
      (List.enumFrom g.nodes.length (nd.drop g.nodes.length)).map
        (fun q => ({ datum := q.2, index := q.1, parent := g.parent } :
          EnterPlaceholder)) := by
    rw [List.filterMap_append, filterMap_id_replicate_none, List.nil_append,
      filterMap_id_map_some]
  refine ⟨?_, ?_, ?_, ?_⟩
  · rcases Nat.le_total nd.length g.nodes.length with hc | hc
    · refine Or.inl ?_
      rw [hent, List.drop_eq_nil_of_le hc]
      rfl
    · exact Or.inr (List.drop_eq_nil_of_le hc)
  · intro hlt
    exact ⟨hent, List.drop_eq_nil_of_le (Nat.le_of_lt hlt)⟩
  · intro hlt
    refine ⟨rfl, ?_⟩
    rw [hent, List.drop_eq_nil_of_le (Nat.le_of_lt hlt)]
    rfl
  · intro heq
    refine ⟨?_, ?_⟩
    · rw [hent, List.drop_eq_nil_of_le (Nat.le_of_eq heq)]
      rfl
    · exact List.drop_eq_nil_of_le (Nat.le_of_eq heq.symm)

/-- Witness for C10: the trailing behaviour evaluated on a concrete
positional join of two nodes against three data values. -/
theorem c10_positional_trailing_witness :
    (c10R.enter.filterMap id = [] ∨ c10R.exit = []) ∧
    (c10G.nodes.length < ([10, 20, 30] : List Datum).length →
      c10R.enter.filterMap id =
        (List.enumFrom c10G.nodes.length (([10, 20, 30] : List Datum).drop
          c10G.nodes.length)).map
          (fun q => ({ datum := q.2, index := q.1, parent := c10G.parent } :
            EnterPlaceholder)) ∧
      c10R.exit = []) ∧
    (([10, 20, 30] : List Datum).length < c10G.nodes.length →
      c10R.exit = c10G.nodes.drop ([10, 20, 30] : List Datum).length ∧
      c10R.enter.filterMap id = []) ∧
    (([10, 20, 30] : List Datum).length = c10G.nodes.length →
      c10R.enter.filterMap id = [] ∧ c10R.exit = []) :=
  c10_positional_trailing c10G [10, 20, 30] c10R (by decide)

theorem zipWith_bound_refl :
    ∀ (ns : List NodeHandle) (nd : List Datum), ns.length = nd.length →
      (∀ i (hi : i < ns.length) (hdi : i < nd.length),
        (ns.get ⟨i, hi⟩).boundDatum = some (nd.get ⟨i, hdi⟩)) →
      List.zipWith (fun n d => some { n with boundDatum := some d }) ns nd =
        ns.map some := by
  intro ns
  induction ns with
  | nil => intro nd h hb; simp
  | cons n ns ih =>
    intro nd h hb
    cases nd with
    | nil => simp at h
    | cons d nd =>
      have h₀ : n.boundDatum = some d := by
        have := hb 0 (by simp) (by simp)
        simpa using this
      have h₁ : ({ n with boundDatum := some d } : NodeHandle) = n := by
        cases n with
        | mk nid nbd npar =>
          simp only at h₀
          simp [h₀]
      simp only [List.zipWith_cons_cons, List.map_cons]
      rw [h₁, ih nd (by simpa using h)
        (fun i hi hdi => by
          have := hb (i + 1) (by simpa using Nat.succ_lt_succ hi)
            (by simpa using Nat.succ_lt_succ hdi)
          simpa using this)]

/-- Claim C4: rejoining a group whose nodes are already bound to the same
data array with the default positional key is a pure refresh: every update
slot is filled with the node unchanged, enter and exit are empty. -/
theorem c4_positional_identity (g : Group) (nd : List Datum) (r : GroupJoinResult)
    (hlen : g.nodes.length = nd.length)
    (hbound : ∀ i (hi : i < g.nodes.length) (hdi : i < nd.length),
      (g.nodes.get ⟨i, hi⟩).boundDatum = some (nd.get ⟨i, hdi⟩))
    (hj : joinGroup .byIndex g nd = some r) :
    r.update = g.nodes.map some ∧ r.update.length = g.nodes.length ∧
    r.enter.filterMap id = [] ∧ r.exit = [] := by
  have hb := joinGroup_byIndex g nd
  rw [hj] at hb
  injection hb with hb
  subst hb
  refine ⟨?_, ?_, ?_, ?_⟩
  · have h₀ : nd.length - g.nodes.length = 0 := by omega
    rw [h₀]
    rw [zipWith_bound_refl g.nodes nd hlen hbound]
    simp
  · simp only [List.length_append, List.length_zipWith, List.length_replicate]
    omega
  · rw [List.filterMap_append, filterMap_id_replicate_none, List.nil_append,
      filterMap_id_map_some, List.drop_eq_nil_of_le (Nat.le_of_eq hlen.symm)]
    rfl
  · exact List.drop_eq_nil_of_le (Nat.le_of_eq hlen)

/-- Witness for C4: rejoining the two nodes bound to 4, 8 with the same
array is a pure refresh. -/
theorem c4_positional_identity_witness :
    c4R.update = c4G.nodes.map some ∧ c4R.update.length = c4G.nodes.length ∧
    c4R.enter.filterMap id = [] ∧ c4R.exit = [] :=
  c4_positional_identity c4G [4, 8] c4R (by decide) (by decide) (by decide)

/-- Claim C6: `selectAll` over a selection with `n` non-empty elements
produces exactly `n` groups; the i-th group's parent is the i-th source
element and its slots are exactly that element's matching descendants; an
element with no matches yields an empty group, not an absent one. -/
theorem c6_selectAll_groups (query : NodeHandle → List NodeHandle) (sel : Selection) :
    (selectAll query sel).length = (Selection.allNodes sel).length ∧
    ∀ i (hi : i < (selectAll query sel).length)
      (hi₂ : i < (Selection.allNodes sel).length),
      ((selectAll query sel).get ⟨i, hi⟩).parent = (Selection.allNodes sel).get ⟨i, hi₂⟩ ∧
      ((selectAll query sel).get ⟨i, hi⟩).slots =
        (query ((Selection.allNodes sel).get ⟨i, hi₂⟩)).map some ∧
      (query ((Selection.allNodes sel).get ⟨i, hi₂⟩) = [] →
        ((selectAll query sel).get ⟨i, hi⟩).slots = []) := by
  refine ⟨by simp [selectAll], ?_⟩
  intro i hi hi₂
  have hg : (selectAll query sel).get ⟨i, hi⟩ =
      { parent := (Selection.allNodes sel).get ⟨i, hi₂⟩,
        slots := (query ((Selection.allNodes sel).get ⟨i, hi₂⟩)).map some } := by
    simp [selectAll, List.get_eq_getElem]
  rw [hg]
  refine ⟨rfl, rfl, ?_⟩
  intro hq
  simp only [hq]
  rfl

/-- Witness for C6: the second source element of the concrete selection
has no matching descendants and still yields its own (empty) group. -/
theorem c6_selectAll_groups_witness :
    ((selectAll c6Q c1Sel).get ⟨1, by decide⟩).parent =
      (Selection.allNodes c1Sel).get ⟨1, by decide⟩ ∧
    ((selectAll c6Q c1Sel).get ⟨1, by decide⟩).slots =
      (c6Q ((Selection.allNodes c1Sel).get ⟨1, by decide⟩)).map some ∧
    (c6Q ((Selection.allNodes c1Sel).get ⟨1, by decide⟩) = [] →
      ((selectAll c6Q c1Sel).get ⟨1, by decide⟩).slots = []) :=
  (c6_selectAll_groups c6Q c1Sel).2 1 (by decide) (by decide)

/-- Claim C7: `append` (and `selectOne`) assign the context element's
bound datum to the produced child by simple assignment, whereas a
regrouping `selectAll` returns the found pre-existing descendants exactly
as the host query produced them, assigning no datum. -/
theorem c7_data_propagation (freshId : NodeHandle → Nat)
    (query1 : NodeHandle → Option NodeHandle) (query : NodeHandle → List NodeHandle)
    (sel : Selection) :
    (∀ i j (p : NodeHandle), slotAt sel i j = some (some p) →
      slotAt (appendChild freshId sel) i j =
        some (some { id := freshId p, boundDatum := p.boundDatum, parent := some p.id })) ∧
    (∀ i j (p c : NodeHandle), slotAt sel i j = some (some p) → query1 p = some c →
      slotAt (selectOne query1 sel) i j =
        some (some { c with boundDatum := p.boundDatum })) ∧
    (∀ i (hi : i < (selectAll query sel).length)
      (hi₂ : i < (Selection.allNodes sel).length),
      ((selectAll query sel).get ⟨i, hi⟩).slots =
        (query ((Selection.allNodes sel).get ⟨i, hi₂⟩)).map some) := by
  refine ⟨?_, ?_, ?_⟩
  · intro i j p hslot
    simp only [slotAt] at hslot ⊢
    cases hsel : sel[i]? with
    | none => rw [hsel] at hslot; simp at hslot
    | some g =>
      rw [hsel] at hslot
      simp only [Option.some_bind] at hslot
      simp only [appendChild, List.getElem?_map, hsel, Option.map_some, Option.some_bind]
      simp [hslot]
  · intro i j p c hslot hq
    simp only [slotAt] at hslot ⊢
    cases hsel : sel[i]? with
    | none => rw [hsel] at hslot; simp at hslot
    | some g =>
      rw [hsel] at hslot
      simp only [Option.some_bind] at hslot
      simp only [selectOne, List.getElem?_map, hsel, Option.map_some, Option.some_bind]
      simp [hslot, hq]
  · intro i hi hi₂
    simp [selectAll, List.get_eq_getElem]

/-- Witness for C7: appending under the node bound to 1 yields a child
bound to 1; selecting a child propagates the datum likewise; selectAll
returns the pre-existing descendant of node 1 unchanged. -/
theorem c7_data_propagation_witness :
    slotAt (appendChild (fun p => p.id + 100) c1Sel) 0 0 =
      some (some { id := 101, boundDatum := some 1, parent := some 1 }) ∧
    slotAt (selectOne
      (fun p => some { id := p.id + 50, boundDatum := none, parent := some p.id })
      c1Sel) 0 0 =
      some (some { id := 51, boundDatum := some 1, parent := some 1 }) ∧
    ((selectAll c6Q c1Sel).get ⟨0, by decide⟩).slots =
      (c6Q ((Selection.allNodes c1Sel).get ⟨0, by decide⟩)).map some := by
  obtain ⟨h₁, h₂, h₃⟩ := c7_data_propagation (fun p => p.id + 100)
    (fun p => some { id := p.id + 50, boundDatum := none, parent := some p.id })
    c6Q c1Sel
  exact ⟨h₁ 0 0 (mkN 1 1) (by decide),
    h₂ 0 0 (mkN 1 1) { id := 51, boundDatum := none, parent := some 1 } (by decide)
      (by decide),
    h₃ 0 (by decide) (by decide)⟩

/-- Claim C5: materialization of an enter selection creates, at each
placeholder position, a fresh NodeHandle carrying the placeholder's datum
and parent, written back into the update sequence at the same position;
positions without a placeholder keep the originally matched node, so
afterwards the update sequence holds the union of matched and entered
nodes (every slot is filled). -/
theorem c5_materializer (factory : Datum → Nat → Nat) (ks : KeySpec) (g : Group)
    (nd : List Datum) (r : GroupJoinResult) (hj : joinGroup ks g nd = some r) :
    (materializeGroup factory r).length = r.update.length ∧
    (∀ j (hje : j < r.enter.length) (ph : EnterPlaceholder),
      r.enter.get ⟨j, hje⟩ = some ph →
      (materializeGroup factory r)[j]? =
        some (some { id := factory ph.datum ph.index, boundDatum := some ph.datum,
                     parent := some ph.parent.id })) ∧
    (∀ j (hje : j < r.enter.length), r.enter.get ⟨j, hje⟩ = none →
      (materializeGroup factory r)[j]? = r.update[j]?) ∧
    (∀ j (hm : j < (materializeGroup factory r).length),
      ((materializeGroup factory r).get ⟨j, hm⟩).isSome = true) := by
  obtain ⟨hul, hel, hxor⟩ := joinGroup_parallel ks g nd r hj
  have hlen : (materializeGroup factory r).length = r.update.length := by
    simp only [materializeGroup, List.length_zipWith]
    omega
  refine ⟨hlen, ?_, ?_, ?_⟩
  · intro j hje ph hph
    have hju : j < r.update.length := by omega
    have hm : j < (materializeGroup factory r).length := by omega
    rw [List.get_eq_getElem] at hph
    rw [List.getElem?_eq_getElem hm]
    simp only [materializeGroup, List.getElem_zipWith, hph]
  · intro j hje hph
    have hju : j < r.update.length := by omega
    have hm : j < (materializeGroup factory r).length := by omega
    rw [List.get_eq_getElem] at hph
    rw [List.getElem?_eq_getElem hm, List.getElem?_eq_getElem hju]
    simp only [materializeGroup, List.getElem_zipWith, hph]
  · intro j hm
    have hju : j < r.update.length := by omega
    have hje : j < r.enter.length := by omega
    simp only [List.get_eq_getElem, materializeGroup, List.getElem_zipWith]
    cases hph : r.enter[j] with
    | some ph => simp
    | none =>
      simp only []
      have hx := hxor j hju hje
      simp only [List.get_eq_getElem, hph] at hx
      simpa using hx

/-- Witness for C5: materializing the concrete join result fills the
placeholder slot with a fresh node bound to 30 and keeps the matched
nodes at the other positions. -/
theorem c5_materializer_witness :
    (materializeGroup (fun _ i => 100 + i) c10R).length = c10R.update.length ∧
    (materializeGroup (fun _ i => 100 + i) c10R)[2]? =
      some (some { id := 102, boundDatum := some 30, parent := some 0 }) ∧
    (materializeGroup (fun _ i => 100 + i) c10R)[0]? = c10R.update[0]? := by
  obtain ⟨h₁, h₂, h₃, h₄⟩ := c5_materializer (fun _ i => 100 + i) .byIndex c10G
    [10, 20, 30] c10R (by decide)
  exact ⟨h₁,
    h₂ 2 (by decide) { datum := 30, index := 2, parent := rootN } (by decide),
    h₃ 0 (by decide) (by decide)⟩

theorem entries_getElem (ns : List NodeHandle) (ok : List Key) (i : Nat)
    (hi : i < ns.length) (hbi : i < ok.length) :
    ((ns.zip ok).map fun p => { node := p.1, key := p.2, consumed := false : OldEntry })[i]? =
      some { node := ns.get ⟨i, hi⟩, key := ok.get ⟨i, hbi⟩, consumed := false } := by
  have hz : i < (ns.zip ok).length := by
    rw [List.length_zip]
    omega
  rw [List.getElem?_map, List.getElem?_eq_getElem hz]
  simp [List.getElem_zip, List.get_eq_getElem]

theorem zip_getElem_some {α β : Type} (l₁ : List α) (l₂ : List β) (j : Nat)
    (hj : j < l₁.length) (hjn : j < l₂.length) :
    (l₁.zip l₂)[j]? = some (l₁.get ⟨j, hj⟩, l₂.get ⟨j, hjn⟩) := by
  have hz : j < (l₁.zip l₂).length := by
    rw [List.length_zip]
    omega
  rw [List.getElem?_eq_getElem hz]
  simp [List.getElem_zip, List.get_eq_getElem]

theorem unconsumed_mem (es : List OldEntry) (i : Nat) (e : OldEntry)
    (h : es[i]? = some e) (hc : e.consumed = false) : e.node ∈ unconsumedNodes es := by
  have hm : e ∈ es := List.getElem?_mem h
  have hf : e ∈ es.filter (fun x => !x.consumed) :=
    List.mem_filter.mpr ⟨hm, by simp [hc]⟩
  exact List.mem_map_of_mem _ hf

theorem joinCore_unconsumed_exit (p : NodeHandle) (old : List (NodeHandle × Key))
    (nw : List (Datum × Key)) (i : Nat) (np : NodeHandle × Key)
    (h : old[i]? = some np)
    (hstay : ∀ e₂,
      (joinNew p (old.map fun q => { node := q.1, key := q.2, consumed := false : OldEntry })
        0 nw).2.2[i]? = some e₂ → e₂.consumed = false) :
    np.1 ∈ (joinCore p old nw).exit := by
  have hes : (old.map fun q => { node := q.1, key := q.2, consumed := false : OldEntry })[i]? =
      some { node := np.1, key := np.2, consumed := false } := by
    rw [List.getElem?_map, h]
    rfl
  have hib : i < old.length := (List.getElem?_eq_some_iff.mp h).1
  have hfin : i < (joinNew p
      (old.map fun q => { node := q.1, key := q.2, consumed := false : OldEntry })
      0 nw).2.2.length := by
    rw [joinNew_entries_length]
    simpa using hib
  obtain ⟨e₂, he₂⟩ : ∃ e₂, (joinNew p
      (old.map fun q => { node := q.1, key := q.2, consumed := false : OldEntry })
      0 nw).2.2[i]? = some e₂ := ⟨_, List.getElem?_eq_getElem hfin⟩
  have hc := hstay e₂ he₂
  have hn := (joinNew_entry_proj_opt p nw _ 0 i _ e₂ hes he₂).1
  have hmem := unconsumed_mem _ i e₂ he₂ hc
  rw [hn] at hmem
  simpa [joinCore] using hmem

/-- Claim C8: within one group, when two or more old nodes share a key,
the first occurrence (in old order) owns the key-to-node mapping — if any
new key matches it, the first occurrence is the node that is updated —
while every later duplicate old node is routed to the exit result as an
unmatched leftover rather than being dropped; the resolution is a fixed
function of the inputs. -/
theorem c8_duplicate_old_keys (ks : KeySpec) (g : Group) (nd : List Datum)
    (r : GroupJoinResult) (ok nk : List Key)
    (hj : joinGroup ks g nd = some r)
    (hok : oldKeys ks g.nodes = some ok) (hnk : newKeys ks nd = some nk)
    (i₁ i₂ : Nat) (h₁ : i₁ < g.nodes.length) (h₂ : i₂ < g.nodes.length)
    (hb₁ : i₁ < ok.length) (hb₂ : i₂ < ok.length) (h₁₂ : i₁ < i₂)
    (hkey : ok.get ⟨i₁, hb₁⟩ = ok.get ⟨i₂, hb₂⟩) :
    g.nodes.get ⟨i₂, h₂⟩ ∈ r.exit ∧
    ((∀ i₀ (hb₀ : i₀ < ok.length), i₀ < i₁ → ok.get ⟨i₀, hb₀⟩ ≠ ok.get ⟨i₁, hb₁⟩) →
      (∃ j, ∃ hjn : j < nk.length, nk.get ⟨j, hjn⟩ = ok.get ⟨i₁, hb₁⟩) →
      ∃ j, ∃ hjm : j < nd.length,
        r.update[j]? =
          some (some { g.nodes.get ⟨i₁, h₁⟩ with
                       boundDatum := some (nd.get ⟨j, hjm⟩) })) := by
  obtain ⟨ok₂, nk₂, hok₂, hnk₂, hr⟩ := joinGroup_some ks g nd r hj
  rw [hok] at hok₂
  rw [hnk] at hnk₂
  injection hok₂ with hok₂
  injection hnk₂ with hnk₂
  subst hok₂
  subst hnk₂
  subst hr
  have hokl := oldKeys_length ks g.nodes ok hok
  have hnkl := newKeys_length ks nd nk hnk
  constructor
  · refine joinCore_unconsumed_exit g.parent (g.nodes.zip ok) (nd.zip nk) i₂
      (g.nodes.get ⟨i₂, h₂⟩, ok.get ⟨i₂, hb₂⟩) (zip_getElem_some g.nodes ok i₂ h₂ hb₂) ?_
    intro e₂ he₂
    by_contra hcon
    have hctrue : e₂.consumed = true := by
      cases hcc : e₂.consumed with
      | false => exact absurd hcc hcon
      | true => rfl
    have hes₂ := entries_getElem g.nodes ok i₂ h₂ hb₂
    have hfirst := joinNew_consumed_first g.parent (nd.zip nk) _ 0 i₂ _ e₂ hes₂ he₂ hctrue
    rcases hfirst with hl | hr₂
    · simp at hl
    · have hes₁ := entries_getElem g.nodes ok i₁ h₁ hb₁
      have := hr₂ i₁ _ h₁₂ hes₁
      simp only at this
      exact this hkey
  · intro hu hmatch
    simp only [joinCore]
    have hes₁ := entries_getElem g.nodes ok i₁ h₁ hb₁
    obtain ⟨j, hjn, hjk⟩ := hmatch
    have hjm : j < nd.length := by omega
    have hcons := joinNew_first_match_consumed g.parent (nd.zip nk) _ 0 i₁ _ hes₁ rfl
      (by
        intro i₀ e₀ h₀ hg₀
        have hb₀ : i₀ < ok.length := by
          have := (List.getElem?_eq_some_iff.mp hg₀).1
          simp only [List.length_map, List.length_zip] at this
          omega
        have hn₀ : i₀ < g.nodes.length := by omega
        have := entries_getElem g.nodes ok i₀ hn₀ hb₀
        rw [this] at hg₀
        injection hg₀ with hg₀
        subst hg₀
        simp only
        exact hu i₀ hb₀ h₀)
      ⟨j, (nd.get ⟨j, hjm⟩, nk.get ⟨j, hjn⟩), zip_getElem_some nd nk j hjm hjn, hjk⟩
    obtain ⟨e₂, he₂, hc₂⟩ := hcons
    rcases joinNew_consumed_src g.parent (nd.zip nk) _ 0 i₁ _ e₂ hes₁ he₂ hc₂ with
      hl | ⟨j₀, dk, hnw, hdk, hupd⟩
    · simp at hl
    · obtain ⟨hz₁, hz₂⟩ := (List.getElem?_zip_eq_some.mp hnw)
      obtain ⟨hjb, hjv⟩ := List.getElem?_eq_some_iff.mp hz₁
      refine ⟨j₀, hjb, ?_⟩
      rw [hupd]
      simp only [List.get_eq_getElem, hjv]

/-- Witness for C8: in a group with two nodes keyed 7, joining a single
datum 7 updates the first node and routes the duplicate to exit. -/
theorem c8_duplicate_old_keys_witness :
    mkN 2 7 ∈ c8R.exit ∧
    ∃ j, ∃ hjm : j < ([7] : List Datum).length,
      c8R.update[j]? =
        some (some { mkN 1 7 with
                     boundDatum := some (([7] : List Datum).get ⟨j, hjm⟩) }) := by
  obtain ⟨ha, hb⟩ := c8_duplicate_old_keys (.byKey fun d => d) c8G [7] c8R [7, 7] [7]
    (by decide) (by decide) (by decide) 0 1 (by decide) (by decide) (by decide)
    (by decide) (by decide) (by decide)
  exact ⟨ha, hb (by decide) ⟨0, by decide, by decide⟩⟩

/-- Claim C2 as stated is refuted: in a group whose two old nodes share
the key 7, the second old node's key matches the (single) new datum's
key, yet the update slot at the matching position holds the first node
and the second node is routed to exit instead. -/
theorem c2_keyed_stability_counterexample :
    joinGroup (.byKey fun d => d) c8G [7] = some c8R ∧
    (fun d : Option Datum => d) (some 7) = (fun d : Option Datum => d) (mkN 2 7).boundDatum ∧
    c8R.update[0]? ≠ some (some { mkN 2 7 with boundDatum := some 7 }) ∧
    mkN 2 7 ∈ c8R.exit :=
  ⟨by decide, by decide, by decide, by decide⟩

/-- Claim C2 (amended): for every keyed join within one group whose old
nodes carry pairwise-distinct keys, each old node whose key matches some
new datum's key is placed in the update result at the first matching
datum's position (update follows the new data's order) with its bound
datum overwritten by that datum; each old node whose key matches no new
datum is placed in the exit result in its original relative order with
its original bound datum; and the old nodes keyed A,B,C,D,E rejoined
with Y,E,A,O,I under the identity key yield exactly update slots for E
and A at the new positions, enter placeholders for Y,O,I and exit B,C,D
in original order. -/
theorem c2_keyed_stability (f : Option Datum → Option Key) (g : Group) (nd : List Datum)
    (r : GroupJoinResult) (hj : joinGroup (.byKey f) g nd = some r)
    (hdist : ∀ i₁ (h₁ : i₁ < g.nodes.length), ∀ i₂ (h₂ : i₂ < g.nodes.length), i₁ ≠ i₂ →
      f (g.nodes.get ⟨i₁, h₁⟩).boundDatum ≠ f (g.nodes.get ⟨i₂, h₂⟩).boundDatum) :
    (∀ i (hi : i < g.nodes.length) (j : Nat) (hjm : j < nd.length),
      f (some (nd.get ⟨j, hjm⟩)) = f (g.nodes.get ⟨i, hi⟩).boundDatum →
      (∀ j₁ (hl : j₁ < j),
        f (some (nd.get ⟨j₁, Nat.lt_trans hl hjm⟩)) ≠ f (g.nodes.get ⟨i, hi⟩).boundDatum) →
      r.update[j]? =
        some (some { g.nodes.get ⟨i, hi⟩ with boundDatum := some (nd.get ⟨j, hjm⟩) })) ∧
    (∀ i (hi : i < g.nodes.length),
      (∀ j (hjm : j < nd.length),
        f (some (nd.get ⟨j, hjm⟩)) ≠ f (g.nodes.get ⟨i, hi⟩).boundDatum) →
      g.nodes.get ⟨i, hi⟩ ∈ r.exit) ∧
    r.exit.Sublist g.nodes ∧
    joinGroup (.byKey fun d => d) c2G [25, 5, 1, 15, 9] = some c2Res := by
  obtain ⟨ok, nk, hok, hnk, hr⟩ := joinGroup_some (.byKey f) g nd r hj
  subst hr
  have hokl := oldKeys_length (.byKey f) g.nodes ok hok
  have hnkl := newKeys_length (.byKey f) nd nk hnk
  simp only [oldKeys] at hok
  simp only [newKeys] at hnk
  have hfo : ∀ i (hi : i < g.nodes.length) (hbi : i < ok.length),
      f ((g.nodes.get ⟨i, hi⟩).boundDatum) = some (ok.get ⟨i, hbi⟩) := by
    intro i hi hbi
    have h₂ := evalKeys_get f (g.nodes.map NodeHandle.boundDatum) ok hok i
      (by simpa using hi) hbi
    simpa [List.get_eq_getElem] using h₂
  have hfn : ∀ j (hjm : j < nd.length) (hbj : j < nk.length),
      f (some (nd.get ⟨j, hjm⟩)) = some (nk.get ⟨j, hbj⟩) := by
    intro j hjm hbj
    have h₂ := evalKeys_get f (nd.map some) nk hnk j (by simpa using hjm) hbj
    simpa [List.get_eq_getElem] using h₂
  have huniq : ∀ i (hi : i < g.nodes.length) (hbi : i < ok.length),
      ∀ i₀ e₀, i₀ ≠ i →
        ((g.nodes.zip ok).map
          fun p => { node := p.1, key := p.2, consumed := false : OldEntry })[i₀]? =
            some e₀ →
        e₀.key ≠ ok.get ⟨i, hbi⟩ := by
    intro i hi hbi i₀ e₀ hne hg₀
    have hb₀ : i₀ < ok.length := by
      have h₃ := (List.getElem?_eq_some_iff.mp hg₀).1
      simp only [List.length_map, List.length_zip] at h₃
      omega
    have hn₀ : i₀ < g.nodes.length := by omega
    rw [entries_getElem g.nodes ok i₀ hn₀ hb₀] at hg₀
    injection hg₀ with hg₀
    subst hg₀
    simp only
    intro hcon
    apply hdist i₀ hn₀ i hi hne
    rw [hfo i₀ hn₀ hb₀, hfo i hi hbi, hcon]
  refine ⟨?_, ?_, ?_, by decide⟩
  · intro i hi j hjm hmatch hfirstj
    simp only [joinCore]
    have hbi : i < ok.length := by omega
    have hbj : j < nk.length := by omega
    have hknk : nk.get ⟨j, hbj⟩ = ok.get ⟨i, hbi⟩ := by
      have h₂ := hfn j hjm hbj
      have h₃ := hfo i hi hbi
      rw [h₂, h₃] at hmatch
      exact Option.some.inj hmatch
    have h₄ := joinNew_first_update g.parent (nd.zip nk)
      ((g.nodes.zip ok).map fun p => { node := p.1, key := p.2, consumed := false : OldEntry })
      0 i _ (entries_getElem g.nodes ok i hi hbi) rfl
      (fun i₀ e₀ hne hg₀ => huniq i hi hbi i₀ e₀ hne hg₀)
      j (nd.get ⟨j, hjm⟩, nk.get ⟨j, hbj⟩) (zip_getElem_some nd nk j hjm hbj) hknk
      (by
        intro j₁ dk₁ hlt hg₁
        obtain ⟨hz₁, hz₂⟩ := List.getElem?_zip_eq_some.mp hg₁
        obtain ⟨hjb₁, hjv₁⟩ := List.getElem?_eq_some_iff.mp hz₁
        obtain ⟨hkb₁, hkv₁⟩ := List.getElem?_eq_some_iff.mp hz₂
        simp only
        intro hcon
        apply hfirstj j₁ hlt
        have h₅ := hfn j₁ hjb₁ hkb₁
        have h₇ : nk.get ⟨j₁, hkb₁⟩ = dk₁.2 := by
          simp [List.get_eq_getElem, hkv₁]
        rw [hfo i hi hbi]
        exact h₅.trans (by rw [h₇, hcon]))
    exact h₄
  · intro i hi hnomatch
    have hbi : i < ok.length := by omega
    refine joinCore_unconsumed_exit g.parent (g.nodes.zip ok) (nd.zip nk) i
      (g.nodes.get ⟨i, hi⟩, ok.get ⟨i, hbi⟩) (zip_getElem_some g.nodes ok i hi hbi) ?_
    intro e₂ he₂
    cases hcc : e₂.consumed with
    | false => rfl
    | true =>
      exfalso
      have hsrc := joinNew_consumed_src g.parent (nd.zip nk) _ 0 i _ e₂
        (entries_getElem g.nodes ok i hi hbi) he₂ hcc
      rcases hsrc with hl | ⟨j₀, dk, hnw, hdk, _⟩
      · simp at hl
      · obtain ⟨hz₁, hz₂⟩ := List.getElem?_zip_eq_some.mp hnw
        obtain ⟨hjb, hjv⟩ := List.getElem?_eq_some_iff.mp hz₁
        obtain ⟨hkb, hkv⟩ := List.getElem?_eq_some_iff.mp hz₂
        apply hnomatch j₀ hjb
        have h₅ := hfn j₀ hjb hkb
        rw [hfo i hi hbi]
        rw [show nd.get ⟨j₀, hjb⟩ = dk.1 from by simp [List.get_eq_getElem, hjv]] at h₅ ⊢
        rw [h₅]
        simp only at hdk
        rw [show nk.get ⟨j₀, hkb⟩ = dk.2 from by simp [List.get_eq_getElem, hkv], hdk]
  · simp only [joinCore]
    have hproj := joinNew_entries_proj g.parent (nd.zip nk)
      ((g.nodes.zip ok).map fun p => { node := p.1, key := p.2, consumed := false : OldEntry }) 0
    have hfinnodes : (joinNew g.parent
        ((g.nodes.zip ok).map fun p => { node := p.1, key := p.2, consumed := false : OldEntry })
        0 (nd.zip nk)).2.2.map OldEntry.node = g.nodes := by
      have hpair : ∀ (l : List OldEntry),
          l.map OldEntry.node = (l.map fun e => (e.node, e.key)).map Prod.fst := by
        intro l
        rw [List.map_map]
        rfl
      rw [hpair, hproj, ← hpair, List.map_map]
      exact List.map_fst_zip g.nodes ok (Nat.le_of_eq hokl.symm)
    have hsub := (List.filter_sublist (p := fun e => !e.consumed)
      ((joinNew g.parent
        ((g.nodes.zip ok).map fun p => { node := p.1, key := p.2, consumed := false : OldEntry })
        0 (nd.zip nk)).2.2)).map OldEntry.node
    rw [hfinnodes] at hsub
    exact hsub

/-- Witness for C2 (amended), at the ABCDE/YEAOI example: node E lands in
update at position 1 bound to its datum, node B lands in exit, and exit
is a sublist of the old nodes. -/
theorem c2_keyed_stability_witness :
    c2Res.update[1]? =
      some (some { c2G.nodes.get ⟨4, by decide⟩ with
                   boundDatum := some (([25, 5, 1, 15, 9] : List Datum).get ⟨1, by decide⟩) }) ∧
    c2G.nodes.get ⟨1, by decide⟩ ∈ c2Res.exit ∧
    c2Res.exit.Sublist c2G.nodes := by
  obtain ⟨h₁, h₂, h₃, h₄⟩ := c2_keyed_stability (fun d => d) c2G [25, 5, 1, 15, 9] c2Res
    (by decide) (by decide)
  exact ⟨h₁ 4 (by decide) 1 (by decide) (by decide) (by decide),
    h₂ 1 (by decide) (by decide), h₃⟩

end D3Join
